import Mathlib

/-!
# Verification of the screenshot-to-design-elements core

Shallow embedding of the repository's image-analysis pipeline:
the layout analyzer (`src/services/layoutAnalyzer.ts`), the local region
segmenter (`src/services/localImageProcessor.ts`), the recognition
orchestrator (`src/services/index.ts`) and the remote vision-service
adapter (`openApiVisionService.ts`).

JavaScript numbers are modelled as exact rationals `ℚ`; `NaN` values that
arise from reading a typed array at a fractional index, or from
`parseInt` on non-digits, are modelled as `Option ℚ` with `none` playing
the role of `NaN` (every JS comparison with `NaN` is false, which the
definitions reproduce explicitly).  JS strings are modelled as `List Char`.
-/

namespace I2P

/-- `ConstraintType` from `types.ts`: one of min/center/max/stretch/scale. -/
inductive ConstraintType where
  | min
  | center
  | max
  | stretch
  | scale
  deriving DecidableEq, Repr

/-- `ElementType` from `types.ts`. -/
inductive ElementType where
  | rectangle
  | circle
  | text
  | image
  | frame
  | line
  deriving DecidableEq, Repr

/-- `ColorInfo` from `types.ts`: r,g,b plus optional alpha.  Each channel is
`Option ℚ`, `none` standing for a JS `NaN` produced by invalid sampling or
`parseInt` failure. -/
structure ColorInfo where
  r : Option ℚ
  g : Option ℚ
  b : Option ℚ
  a : Option ℚ := none
  deriving DecidableEq, Repr

/-- `LayoutConstraints` from `types.ts`. -/
structure LayoutConstraints where
  horizontal : ConstraintType
  vertical : ConstraintType
  deriving DecidableEq, Repr

/-- The `padding` record inside `LayoutInfo`. -/
structure LayoutPadding where
  top : ℚ
  right : ℚ
  bottom : ℚ
  left : ℚ
  deriving DecidableEq, Repr

/-- The `alignment` field of `LayoutInfo` (`"start" | "center" | "end" | "stretch"`). -/
inductive LayoutAlignment where
  | start
  | center
  | stop   -- the source's "end" (a reserved word in Lean)
  | stretch
  deriving DecidableEq, Repr

/-- The `direction` field of `LayoutInfo`. -/
inductive LayoutDirection where
  | horizontal
  | vertical
  deriving DecidableEq, Repr

/-- `LayoutInfo` from `types.ts`; all fields optional. -/
structure LayoutInfo where
  constraints : Option LayoutConstraints := none
  padding : Option LayoutPadding := none
  gap : Option ℚ := none
  alignment : Option LayoutAlignment := none
  direction : Option LayoutDirection := none
  deriving DecidableEq, Repr

/-- `RecognizedElement` from `types.ts`.  The fields `gradient`, `effects`,
`imageData` and `children` are never produced by the analyzed pipeline
(segmenter and adapter leave them absent, the layout pass copies the record
wholesale) and are omitted from the embedding. -/
structure RecognizedElement where
  type : ElementType
  x : ℚ
  y : ℚ
  width : ℚ
  height : ℚ
  color : Option ColorInfo := none
  layout : Option LayoutInfo := none
  text : Option (List Char) := none
  fontSize : Option ℚ := none
  deriving DecidableEq, Repr

/-- `LayoutRow` from `types.ts` (`elements` holds element indices). -/
structure LayoutRow where
  y : ℚ
  height : ℚ
  elements : List ℕ
  deriving DecidableEq, Repr

/-- `LayoutColumn` from `types.ts`. -/
structure LayoutColumn where
  x : ℚ
  width : ℚ
  elements : List ℕ
  deriving DecidableEq, Repr

/-- `GridInfo` from `types.ts`. -/
structure GridInfo where
  columnCount : ℕ
  rowCount : ℕ
  columnGap : ℚ
  rowGap : ℚ
  deriving DecidableEq, Repr

/-- `LayoutStructure` from `types.ts`. -/
structure LayoutStructure where
  rows : List LayoutRow
  columns : List LayoutColumn
  gridInfo : Option GridInfo := none
  deriving DecidableEq, Repr

/-! ## Layout analyzer (`layoutAnalyzer.ts`) -/

/-- `LayoutAnalyzerConfig` after the constructor has applied the defaults
(`alignmentThreshold ?? 5`, `gapThreshold ?? 10`, `minGroupSize ?? 2`). -/
structure LayoutAnalyzerConfig where
  alignmentThreshold : ℚ := 5
  gapThreshold : ℚ := 10
  minGroupSize : ℕ := 2
  deriving DecidableEq, Repr

/-- `ElementBounds` (private interface in `layoutAnalyzer.ts`). -/
structure ElementBounds where
  index : ℕ
  left : ℚ
  top : ℚ
  right : ℚ
  bottom : ℚ
  centerX : ℚ
  centerY : ℚ
  deriving DecidableEq, Repr, Inhabited

/-- `LayoutAnalyzer.calculateBounds`. -/
def calculateBounds (elements : List RecognizedElement) : List ElementBounds :=
  elements.enum.map fun p =>
    { index := p.1
      left := p.2.x
      top := p.2.y
      right := p.2.x + p.2.width
      bottom := p.2.y + p.2.height
      centerX := p.2.x + p.2.width / 2
      centerY := p.2.y + p.2.height / 2 }

/-- The loop body of `LayoutAnalyzer.groupByValue`: walk the sorted bounds,
flushing the current group whenever the gap to the previous value exceeds
the threshold.  `last` is the value of the previously processed bound;
the JS code initialises it to `-Infinity`, which together with the
`currentGroup.length > 0` guard means the first element never flushes, so
the embedding starts the walk at the first bound directly. -/
def groupScan (getValue : ElementBounds → ℚ) (threshold : ℚ) :
    ℚ → List ℕ → List ElementBounds → List (List ℕ)
  | _, cur, [] => [cur.reverse]
  | last, cur, b :: rest =>
    if getValue b - last > threshold then
      cur.reverse :: groupScan getValue threshold (getValue b) [b.index] rest
    else
      groupScan getValue threshold (getValue b) (b.index :: cur) rest

/-- The scan over the already-sorted bounds (first bound seeds the current
group, as forced by the `-Infinity` initialisation in the JS loop). -/
def groupStart (getValue : ElementBounds → ℚ) (threshold : ℚ) :
    List ElementBounds → List (List ℕ)
  | [] => []
  | b :: rest => groupScan getValue threshold (getValue b) [b.index] rest

/-- `LayoutAnalyzer.groupByValue`: sort by the extracted value, then group
with single-linkage gaps. -/
def groupByValue (bounds : List ElementBounds) (getValue : ElementBounds → ℚ)
    (threshold : ℚ) : List (List ℕ) :=
  groupStart getValue threshold
    (bounds.insertionSort (fun a b => getValue a ≤ getValue b))

/-- JS `Math.abs` on a (non-`NaN`) number. -/
def jsAbs (q : ℚ) : ℚ := if q < 0 then -q else q

theorem jsAbs_eq_abs (q : ℚ) : jsAbs q = |q| := by
  rcases lt_or_ge q 0 with h | h
  · rw [jsAbs, if_pos h, abs_of_neg h]
  · rw [jsAbs, if_neg (not_lt.mpr h), abs_of_nonneg h]

/-- `LayoutAnalyzer.inferHorizontalConstraint`. -/
def inferHorizontalConstraint (element : RecognizedElement)
    (containerWidth : ℚ) : ConstraintType :=
  let leftDistance := element.x
  let rightDistance := containerWidth - (element.x + element.width)
  let threshold := containerWidth * (1 / 10)
  if element.width > containerWidth * (8 / 10) then .stretch
  else if jsAbs (leftDistance - rightDistance) < threshold then .center
  else if leftDistance < rightDistance ∧ leftDistance < threshold then .min
  else if rightDistance < leftDistance ∧ rightDistance < threshold then .max
  else .scale

/-- `LayoutAnalyzer.inferVerticalConstraint`. -/
def inferVerticalConstraint (element : RecognizedElement)
    (containerHeight : ℚ) : ConstraintType :=
  let topDistance := element.y
  let bottomDistance := containerHeight - (element.y + element.height)
  let threshold := containerHeight * (1 / 10)
  if element.height > containerHeight * (8 / 10) then .stretch
  else if jsAbs (topDistance - bottomDistance) < threshold then .center
  else if topDistance < bottomDistance ∧ topDistance < threshold then .min
  else if bottomDistance < topDistance ∧ bottomDistance < threshold then .max
  else .scale

/-- Modelled from the spec (§4.3): the constraint rule stated over the
distances `d1` (near edge to near edge), `d2` (far edge to far edge), the
element's size on the axis and the container size, with the spec's rule
order and its exact 80%/10% thresholds.  Used only to compare the spec's
wording against the code's `inferHorizontalConstraint` /
`inferVerticalConstraint`. -/
def specConstraintRule (d1 d2 elemSize containerSize : ℚ) : ConstraintType :=
  let threshold := containerSize * (1 / 10)
  if elemSize > containerSize * (8 / 10) then .stretch
  else if jsAbs (d1 - d2) < threshold then .center
  else if d1 < d2 ∧ d1 < threshold then .min
  else if d2 < d1 ∧ d2 < threshold then .max
  else .scale

/-- JS `Math.round`: round half towards positive infinity. -/
def jsRound (q : ℚ) : ℤ := ⌊q + 1 / 2⌋

/-- `Math.min(...)` over a spread of a nonempty list (the `[]` case is
unreachable at the call sites, which only receive nonempty groups). -/
def listMin : List ℚ → ℚ
  | [] => 0
  | x :: rest => rest.foldl min x

/-- `Math.max(...)` over a spread of a nonempty list. -/
def listMax : List ℚ → ℚ
  | [] => 0
  | x :: rest => rest.foldl max x

/-- `counts.set(v, (counts.get(v) || 0) + 1)` on an insertion-ordered map
modelled as an association list: bump an existing entry in place, or append
a fresh entry with count 1. -/
def bumpCount : List (ℤ × ℕ) → ℤ → List (ℤ × ℕ)
  | [], v => [(v, 1)]
  | (k, c) :: rest, v =>
    if k = v then (k, c + 1) :: rest else (k, c) :: bumpCount rest v

/-- The selection loop of `getMostCommonValue`: first entry with a strictly
larger count than everything before it wins; accumulators start at 0. -/
def mostCommonLoop : List (ℤ × ℕ) → ℕ → ℤ → ℤ
  | [], _, best => best
  | (v, c) :: rest, maxCount, best =>
    if c > maxCount then mostCommonLoop rest c v
    else mostCommonLoop rest maxCount best

/-- `LayoutAnalyzer.getMostCommonValue`: round the values, tally them in
insertion order, return the first value attaining the maximal count. -/
def getMostCommonValue (values : List ℚ) : ℤ :=
  mostcommonAux (values.map jsRound)
where
  mostcommonAux (rounded : List ℤ) : ℤ :=
    mostCommonLoop (rounded.foldl bumpCount []) 0 0

/-- The consecutive pairs of a list (`l[i], l[i+1]`). -/
def consecPairs {α : Type} : List α → List (α × α)
  | a :: b :: rest => (a, b) :: consecPairs (b :: rest)
  | _ => []

/-- Integer-valued JS number as a rational. -/
def intToRat (z : ℤ) : ℚ := Rat.ofInt z

/-- `LayoutAnalyzer.detectRows`. -/
def detectRows (cfg : LayoutAnalyzerConfig) (bounds : List ElementBounds) :
    List LayoutRow :=
  let threshold := cfg.alignmentThreshold
  let groups := groupByValue bounds (fun b => b.centerY) (threshold * 2)
  (groups.filter fun group => cfg.minGroupSize ≤ group.length).map fun group =>
    let elements := group.map fun idx => bounds.getD idx default
    let minY := listMin (elements.map fun e => e.top)
    let maxY := listMax (elements.map fun e => e.bottom)
    { y := minY, height := maxY - minY, elements := group }

/-- `LayoutAnalyzer.detectColumns`. -/
def detectColumns (cfg : LayoutAnalyzerConfig) (bounds : List ElementBounds) :
    List LayoutColumn :=
  let threshold := cfg.alignmentThreshold
  let groups := groupByValue bounds (fun b => b.centerX) (threshold * 2)
  (groups.filter fun group => cfg.minGroupSize ≤ group.length).map fun group =>
    let elements := group.map fun idx => bounds.getD idx default
    let minX := listMin (elements.map fun e => e.left)
    let maxX := listMax (elements.map fun e => e.right)
    { x := minX, width := maxX - minX, elements := group }

/-- `LayoutAnalyzer.detectGrid` (its `elements` parameter is unused by the
body and kept only for signature fidelity). -/
def detectGrid (_elements : List RecognizedElement) (rows : List LayoutRow)
    (columns : List LayoutColumn) : Option GridInfo :=
  if rows.length < 2 ∧ columns.length < 2 then none
  else
    let rowGap : ℚ :=
      if 2 ≤ rows.length then
        let sortedRows := rows.insertionSort (fun a b => a.y ≤ b.y)
        let rowGaps := (consecPairs sortedRows).filterMap fun p =>
          let gap := p.2.y - (p.1.y + p.1.height)
          if gap > 0 then some gap else none
        if rowGaps.length > 0 then intToRat (getMostCommonValue rowGaps) else 0
      else 0
    let columnGap : ℚ :=
      if 2 ≤ columns.length then
        let sortedColumns := columns.insertionSort (fun a b => a.x ≤ b.x)
        let columnGaps := (consecPairs sortedColumns).filterMap fun p =>
          let gap := p.2.x - (p.1.x + p.1.width)
          if gap > 0 then some gap else none
        if columnGaps.length > 0 then intToRat (getMostCommonValue columnGaps)
        else 0
      else 0
    some { columnCount := columns.length, rowCount := rows.length,
           columnGap := columnGap, rowGap := rowGap }

/-- `LayoutAnalyzer.analyzeStructure`. -/
def analyzeStructure (cfg : LayoutAnalyzerConfig)
    (elements : List RecognizedElement) (_containerWidth _containerHeight : ℚ) :
    LayoutStructure :=
  if elements.length = 0 then { rows := [], columns := [] }
  else
    let bounds := calculateBounds elements
    let rows := detectRows cfg bounds
    let columns := detectColumns cfg bounds
    let gridInfo := detectGrid elements rows columns
    { rows := rows, columns := columns, gridInfo := gridInfo }

/-- `LayoutAnalyzer.generateConstraints`: a `LayoutInfo` object literal with
exactly the key `constraints` set (the `_layoutStructure` parameter is
ignored, as in the source). -/
def generateConstraints (element : RecognizedElement)
    (containerWidth containerHeight : ℚ)
    (_layoutStructure : Option LayoutStructure) : LayoutInfo :=
  { constraints := some
      { horizontal := inferHorizontalConstraint element containerWidth
        vertical := inferVerticalConstraint element containerHeight } }

/-- The spread `{ ...element.layout, ...layout }` where `layout` is the
constraints-only object produced by `generateConstraints`: every key of the
old layout survives except `constraints`, which is overwritten. -/
def mergeLayoutInfo (old : Option LayoutInfo) (fresh : LayoutInfo) : LayoutInfo :=
  match old with
  | none => fresh
  | some l => { l with constraints := fresh.constraints }

/-- `LayoutAnalyzer.generateAllConstraints`. -/
def generateAllConstraints (cfg : LayoutAnalyzerConfig)
    (elements : List RecognizedElement)
    (containerWidth containerHeight : ℚ) : List RecognizedElement :=
  let layoutStructure := analyzeStructure cfg elements containerWidth containerHeight
  elements.map fun element =>
    let layout := generateConstraints element containerWidth containerHeight
      (some layoutStructure)
    { element with layout := some (mergeLayoutInfo element.layout layout) }

/-- The record returned by `LayoutAnalyzer.detectAlignment`. -/
structure AlignmentGroups where
  leftAligned : List (List ℕ)
  rightAligned : List (List ℕ)
  topAligned : List (List ℕ)
  bottomAligned : List (List ℕ)
  centerXAligned : List (List ℕ)
  centerYAligned : List (List ℕ)
  deriving DecidableEq, Repr

/-- `LayoutAnalyzer.detectAlignment`. -/
def detectAlignment (cfg : LayoutAnalyzerConfig)
    (elements : List RecognizedElement) : AlignmentGroups :=
  let bounds := calculateBounds elements
  let threshold := cfg.alignmentThreshold
  { leftAligned := groupByValue bounds (fun b => b.left) threshold
    rightAligned := groupByValue bounds (fun b => b.right) threshold
    topAligned := groupByValue bounds (fun b => b.top) threshold
    bottomAligned := groupByValue bounds (fun b => b.bottom) threshold
    centerXAligned := groupByValue bounds (fun b => b.centerX) threshold
    centerYAligned := groupByValue bounds (fun b => b.centerY) threshold }

/-- Overwriting the constraints of an already-overwritten layout is the
same as overwriting once. -/
theorem mergeLayoutInfo_idem (old : Option LayoutInfo) (c : LayoutInfo) :
    mergeLayoutInfo (some (mergeLayoutInfo old c)) c = mergeLayoutInfo old c := by
  cases old <;> rfl

/-- C8: `generateAllConstraints` is idempotent — applying it to its own
output (same container dimensions) yields the identical element list,
because the inferred constraints depend only on the x/y/width/height
fields, which the pass does not modify. -/
theorem generateAllConstraints_idempotent (cfg : LayoutAnalyzerConfig)
    (elements : List RecognizedElement) (cw ch : ℚ) :
    generateAllConstraints cfg (generateAllConstraints cfg elements cw ch) cw ch =
      generateAllConstraints cfg elements cw ch := by
  unfold generateAllConstraints
  rw [List.map_map]
  refine List.map_congr_left fun e _ => ?_
  obtain ⟨ty, x, y, w, h, color, layout, text, fs⟩ := e
  cases layout <;> rfl

/-! ### Grouping lemmas for `groupByValue`

`groupByValue` is single-linkage clustering: after sorting, a new group
starts exactly when the gap to the previous value exceeds the threshold.
The lemmas below track how the scan treats a pair of bounds. -/

/-- All consecutive steps from `last` through the list stay within the
threshold (no group break can occur along this stretch). -/
def noBreakFrom (gv : ElementBounds → ℚ) (th : ℚ) : ℚ → List ElementBounds → Prop
  | _, [] => True
  | last, b :: rest => gv b - last ≤ th ∧ noBreakFrom gv th (gv b) rest

/-- Two indices already in the current group end up in a common output
group: the scan only ever flushes the current group wholesale. -/
theorem groupScan_pair_in_cur (gv : ElementBounds → ℚ) (th : ℚ) (i j : ℕ) :
    ∀ (l : List ElementBounds) (last : ℚ) (cur : List ℕ), i ∈ cur → j ∈ cur →
      ∃ g, g ∈ groupScan gv th last cur l ∧ i ∈ g ∧ j ∈ g := by
  intro l
  induction l with
  | nil =>
    intro last cur hi hj
    exact ⟨cur.reverse, by simp [groupScan], List.mem_reverse.mpr hi,
      List.mem_reverse.mpr hj⟩
  | cons b rest ih =>
    intro last cur hi hj
    by_cases hgap : gv b - last > th
    · exact ⟨cur.reverse, by simp [groupScan, hgap], List.mem_reverse.mpr hi,
        List.mem_reverse.mpr hj⟩
    · obtain ⟨g, hg, hgi, hgj⟩ :=
        ih (gv b) (b.index :: cur) (List.mem_cons_of_mem _ hi)
          (List.mem_cons_of_mem _ hj)
      exact ⟨g, by simpa [groupScan, hgap] using hg, hgi, hgj⟩

/-- If no break occurs from `last` up to and including `bj`, then any index
already in the current group shares an output group with `bj`. -/
theorem groupScan_absorb (gv : ElementBounds → ℚ) (th : ℚ) (i : ℕ)
    (bj : ElementBounds) :
    ∀ (m l3 : List ElementBounds) (last : ℚ) (cur : List ℕ), i ∈ cur →
      noBreakFrom gv th last (m ++ [bj]) →
      ∃ g, g ∈ groupScan gv th last cur (m ++ bj :: l3) ∧ i ∈ g ∧ bj.index ∈ g := by
  intro m
  induction m with
  | nil =>
    intro l3 last cur hi hnb
    have hgap : ¬ gv bj - last > th := not_lt.mpr hnb.1
    obtain ⟨g, hg, hgi, hgj⟩ :=
      groupScan_pair_in_cur gv th i bj.index l3 (gv bj) (bj.index :: cur)
        (List.mem_cons_of_mem _ hi) (List.mem_cons_self _ _)
    exact ⟨g, by simpa [groupScan, hgap] using hg, hgi, hgj⟩
  | cons c m ih =>
    intro l3 last cur hi hnb
    have hgap : ¬ gv c - last > th := not_lt.mpr hnb.1
    obtain ⟨g, hg, hgi, hgj⟩ :=
      ih l3 (gv c) (c.index :: cur) (List.mem_cons_of_mem _ hi) hnb.2
    exact ⟨g, by simpa [groupScan, hgap] using hg, hgi, hgj⟩

/-- Processing any prefix `u`, then `a`, then a no-break stretch to `bj`,
puts `a` and `bj` in a common group. -/
theorem groupScan_chain (gv : ElementBounds → ℚ) (th : ℚ)
    (a bj : ElementBounds) :
    ∀ (u m v : List ElementBounds) (last : ℚ) (cur : List ℕ),
      noBreakFrom gv th (gv a) (m ++ [bj]) →
      ∃ g, g ∈ groupScan gv th last cur (u ++ a :: m ++ bj :: v) ∧
        a.index ∈ g ∧ bj.index ∈ g := by
  intro u
  induction u with
  | nil =>
    intro m v last cur hnb
    by_cases hgap : gv a - last > th
    · obtain ⟨g, hg, hgi, hgj⟩ :=
        groupScan_absorb gv th a.index bj m v (gv a) [a.index]
          (List.mem_singleton_self _) hnb
      refine ⟨g, ?_, hgi, hgj⟩
      simp only [List.nil_append, groupScan, if_pos hgap]
      exact List.mem_cons_of_mem _ hg
    · obtain ⟨g, hg, hgi, hgj⟩ :=
        groupScan_absorb gv th a.index bj m v (gv a) (a.index :: cur)
          (List.mem_cons_self _ _) hnb
      exact ⟨g, by simpa [groupScan, hgap] using hg, hgi, hgj⟩
  | cons c u ih =>
    intro m v last cur hnb
    by_cases hgap : gv c - last > th
    · obtain ⟨g, hg, hgi, hgj⟩ := ih m v (gv c) [c.index] hnb
      refine ⟨g, ?_, hgi, hgj⟩
      simp only [List.cons_append, groupScan, if_pos hgap]
      exact List.mem_cons_of_mem _ hg
    · obtain ⟨g, hg, hgi, hgj⟩ := ih m v (gv c) (c.index :: cur) hnb
      exact ⟨g, by simpa [groupScan, hgap] using hg, hgi, hgj⟩

/-- Along a sorted stretch that ends at `y`, if the total spread from `last`
to `y` is within the threshold then every consecutive step is. -/
theorem noBreakFrom_of_sorted (gv : ElementBounds → ℚ) (th : ℚ)
    (y : ElementBounds) :
    ∀ (m : List ElementBounds) (last : ℚ),
      (m ++ [y]).Pairwise (fun c d => gv c ≤ gv d) →
      (∀ c ∈ m, last ≤ gv c) → last ≤ gv y → gv y - last ≤ th →
      (∀ c ∈ m, gv c ≤ gv y) →
      noBreakFrom gv th last (m ++ [y]) := by
  intro m
  induction m with
  | nil =>
    intro last _ _ _ hgap _
    exact ⟨hgap, trivial⟩
  | cons c m ih =>
    intro last hsort hlo hyl hgap hhi
    have hcy : gv c ≤ gv y := hhi c (List.mem_cons_self _ _)
    have hlc : last ≤ gv c := hlo c (List.mem_cons_self _ _)
    refine ⟨by linarith, ?_⟩
    refine ih (gv c) (List.Pairwise.of_cons hsort) ?_ hcy (by linarith) ?_
    · intro d hd
      exact (List.pairwise_cons.mp hsort).1 d (by simp [hd])
    · intro d hd
      exact hhi d (List.mem_cons_of_mem _ hd)

/-- Every index in any output group comes from the current group or from
the remaining input. -/
theorem groupScan_support (gv : ElementBounds → ℚ) (th : ℚ) :
    ∀ (l : List ElementBounds) (last : ℚ) (cur : List ℕ) (g : List ℕ),
      g ∈ groupScan gv th last cur l →
      ∀ n ∈ g, n ∈ cur ∨ n ∈ l.map ElementBounds.index := by
  intro l
  induction l with
  | nil =>
    intro last cur g hg n hn
    simp only [groupScan, List.mem_singleton] at hg
    exact Or.inl (List.mem_reverse.mp (hg ▸ hn))
  | cons b rest ih =>
    intro last cur g hg n hn
    by_cases hgap : gv b - last > th
    · simp only [groupScan, if_pos hgap, List.mem_cons] at hg
      rcases hg with rfl | hg
      · exact Or.inl (List.mem_reverse.mp hn)
      · rcases ih (gv b) [b.index] g hg n hn with h | h
        · simp only [List.mem_singleton] at h
          exact Or.inr (by simp [h])
        · exact Or.inr (by simp [h])
    · simp only [groupScan, if_neg hgap] at hg
      rcases ih (gv b) (b.index :: cur) g hg n hn with h | h
      · rcases List.mem_cons.mp h with rfl | h
        · exact Or.inr (by simp)
        · exact Or.inl h
      · exact Or.inr (by simp [h])

/-- If the input splits into a low part (values ≤ va) and a high part
(values ≥ vb) with `vb - va` above the threshold, every output group stays
on one side of the split. -/
theorem groupScan_split (gv : ElementBounds → ℚ) (th va vb : ℚ)
    (hgap : th < vb - va) :
    ∀ (l1 l2 : List ElementBounds) (last : ℚ) (cur : List ℕ),
      last ≤ va → (∀ c ∈ l1, gv c ≤ va) → (∀ c ∈ l2, vb ≤ gv c) →
      ∀ g ∈ groupScan gv th last cur (l1 ++ l2),
        (∀ n ∈ g, n ∈ cur ∨ n ∈ l1.map ElementBounds.index) ∨
        (∀ n ∈ g, n ∈ l2.map ElementBounds.index) := by
  intro l1
  induction l1 with
  | nil =>
    intro l2 last cur hlast _ h2 g hg
    cases l2 with
    | nil =>
      simp only [List.nil_append, groupScan, List.mem_singleton] at hg
      exact Or.inl fun n hn => Or.inl (List.mem_reverse.mp (hg ▸ hn))
    | cons b2 rest =>
      have hb2 : th < gv b2 - last := by
        have := h2 b2 (List.mem_cons_self _ _)
        linarith
      simp only [List.nil_append, groupScan, if_pos hb2, List.mem_cons] at hg
      rcases hg with rfl | hg
      · exact Or.inl fun n hn => Or.inl (List.mem_reverse.mp hn)
      · refine Or.inr fun n hn => ?_
        rcases groupScan_support gv th rest (gv b2) [b2.index] g hg n hn with h | h
        · simp only [List.mem_singleton] at h
          simp [h]
        · simp [h]
  | cons c l1 ih =>
    intro l2 last cur hlast h1 h2 g hg
    have hc : gv c ≤ va := h1 c (List.mem_cons_self _ _)
    have h1r : ∀ d ∈ l1, gv d ≤ va := fun d hd => h1 d (List.mem_cons_of_mem _ hd)
    by_cases hb : gv c - last > th
    · simp only [List.cons_append, groupScan, if_pos hb, List.mem_cons] at hg
      rcases hg with rfl | hg
      · exact Or.inl fun n hn => Or.inl (List.mem_reverse.mp hn)
      · rcases ih l2 (gv c) [c.index] hc h1r h2 g hg with h | h
        · refine Or.inl fun n hn => ?_
          rcases h n hn with hn1 | hn1
          · simp only [List.mem_singleton] at hn1
            exact Or.inr (by simp [hn1])
          · exact Or.inr (by simp [hn1])
        · exact Or.inr h
    · simp only [List.cons_append, groupScan, if_neg hb] at hg
      rcases ih l2 (gv c) (c.index :: cur) hc h1r h2 g hg with h | h
      · refine Or.inl fun n hn => ?_
        rcases h n hn with hn1 | hn1
        · rcases List.mem_cons.mp hn1 with rfl | hn2
          · exact Or.inr (by simp)
          · exact Or.inl hn2
        · exact Or.inr (by simp [hn1])
      · exact Or.inr h

theorem le_jsAbs (q : ℚ) : q ≤ jsAbs q ∧ -q ≤ jsAbs q := by
  unfold jsAbs
  split <;> constructor <;> linarith

/-- In a sorted list decomposed around `x … y` with total spread within the
threshold, `x` and `y` land in a common group of the scan. -/
theorem groupStart_pair (gv : ElementBounds → ℚ) (th : ℚ)
    (x y : ElementBounds) (u m v : List ElementBounds)
    (hsorted : (u ++ x :: m ++ y :: v).Pairwise fun c d => gv c ≤ gv d)
    (hgap : gv y - gv x ≤ th) :
    ∃ g, g ∈ groupStart gv th (u ++ x :: m ++ y :: v) ∧
      x.index ∈ g ∧ y.index ∈ g := by
  have hchain : (x :: (m ++ [y])).Pairwise (fun c d => gv c ≤ gv d) := by
    refine hsorted.sublist ?_
    have h1 : List.Sublist (x :: (m ++ [y])) (x :: m ++ y :: v) := by
      refine List.Sublist.cons₂ x ?_
      have h2 : List.Sublist ([y] : List ElementBounds) (y :: v) :=
        List.Sublist.cons₂ y (List.nil_sublist v)
      exact h2.append_left m
    have h3 : List.Sublist ((x :: m) ++ (y :: v)) ((u ++ (x :: m)) ++ (y :: v)) :=
      (List.sublist_append_right u (x :: m)).append_right _
    exact h1.trans h3
  have hmy : ∀ c ∈ m, gv c ≤ gv y := by
    intro c hc
    have h2 := (List.pairwise_append.mp hchain.of_cons).2.2
    exact h2 c hc y (List.mem_singleton_self _)
  have hnb : noBreakFrom gv th (gv x) (m ++ [y]) := by
    refine noBreakFrom_of_sorted gv th y m (gv x) hchain.of_cons ?_ ?_ hgap hmy
    · intro c hc
      exact (List.pairwise_cons.mp hchain).1 c (by simp [hc])
    · exact (List.pairwise_cons.mp hchain).1 y (by simp)
  cases u with
  | nil =>
    simp only [List.nil_append, groupStart]
    exact groupScan_absorb gv th x.index y m v (gv x) [x.index]
      (List.mem_singleton_self _) hnb
  | cons c u2 =>
    simp only [List.cons_append, groupStart]
    exact groupScan_chain gv th x y u2 m v (gv c) [c.index] hnb

/-- Two bounds whose values differ by at most the threshold always share an
output group of `groupByValue`. -/
theorem groupByValue_close_pair (bounds : List ElementBounds)
    (gv : ElementBounds → ℚ) (th : ℚ) (a b : ElementBounds)
    (ha : a ∈ bounds) (hb : b ∈ bounds) (hne : a ≠ b)
    (hclose : jsAbs (gv a - gv b) ≤ th) :
    ∃ g, g ∈ groupByValue bounds gv th ∧ a.index ∈ g ∧ b.index ∈ g := by
  classical
  haveI : IsTotal ElementBounds (fun c d => gv c ≤ gv d) :=
    ⟨fun c d => le_total _ _⟩
  haveI : IsTrans ElementBounds (fun c d => gv c ≤ gv d) :=
    ⟨fun c d e h1 h2 => le_trans h1 h2⟩
  have hsorted := List.sorted_insertionSort (fun c d => gv c ≤ gv d) bounds
  have ha2 : a ∈ bounds.insertionSort (fun c d => gv c ≤ gv d) :=
    (List.mem_insertionSort _).mpr ha
  have hb2 : b ∈ bounds.insertionSort (fun c d => gv c ≤ gv d) :=
    (List.mem_insertionSort _).mpr hb
  have hab : gv a - gv b ≤ th := le_trans (le_jsAbs _).1 hclose
  have hba : gv b - gv a ≤ th := by
    have := le_trans (le_jsAbs (gv a - gv b)).2 hclose
    linarith
  obtain ⟨u, t, hs⟩ := List.append_of_mem ha2
  have hbmem : b ∈ u ∨ b ∈ t := by
    rw [hs] at hb2
    rcases List.mem_append.mp hb2 with h | h
    · exact Or.inl h
    · rcases List.mem_cons.mp h with h | h
      · exact absurd h.symm (fun hh => hne hh)
      · exact Or.inr h
  unfold groupByValue
  rcases hbmem with h | h
  · obtain ⟨u1, u2, hu⟩ := List.append_of_mem h
    have hs2 : bounds.insertionSort (fun c d => gv c ≤ gv d) =
        u1 ++ b :: u2 ++ a :: t := by
      simp [hs, hu]
    rw [hs2] at hsorted ⊢
    obtain ⟨g, hg, hgb, hga⟩ := groupStart_pair gv th b a u1 u2 t hsorted hab
    exact ⟨g, hg, hga, hgb⟩
  · obtain ⟨m, v, ht⟩ := List.append_of_mem h
    have hs2 : bounds.insertionSort (fun c d => gv c ≤ gv d) =
        u ++ a :: m ++ b :: v := by
      simp [hs, ht]
    rw [hs2] at hsorted ⊢
    obtain ⟨g, hg, hga, hgb⟩ := groupStart_pair gv th a b u m v hsorted hba
    exact ⟨g, hg, hga, hgb⟩

/-- The head of a nonempty `dropWhile` result fails the predicate. -/
theorem dropWhile_head_false {α : Type} (p : α → Bool) :
    ∀ (l : List α) (a : α) (l2 : List α),
      l.dropWhile p = a :: l2 → p a = false := by
  intro l
  induction l with
  | nil =>
    intro a l2 h
    simp [List.dropWhile] at h
  | cons b t ih =>
    intro a l2 h
    by_cases hb : p b
    · rw [List.dropWhile_cons_of_pos hb] at h
      exact ih a l2 h
    · rw [List.dropWhile_cons_of_neg hb] at h
      injection h with h1 _
      subst h1
      simpa using hb

/-- Auxiliary form of the separation property, with `gv x < gv y` fixed. -/
theorem groupByValue_separated_aux (bounds : List ElementBounds)
    (gv : ElementBounds → ℚ) (th : ℚ) (x y : ElementBounds)
    (hx : x ∈ bounds) (hy : y ∈ bounds)
    (hnd : (bounds.map ElementBounds.index).Nodup)
    (hxy : gv x < gv y) (hfar : th < gv y - gv x)
    (hmid : ∀ c ∈ bounds, gv c ≤ gv x ∨ gv y ≤ gv c) :
    ∀ g ∈ groupByValue bounds gv th, ¬(x.index ∈ g ∧ y.index ∈ g) := by
  classical
  intro g hg hand
  haveI : IsTotal ElementBounds (fun c d => gv c ≤ gv d) :=
    ⟨fun c d => le_total _ _⟩
  haveI : IsTrans ElementBounds (fun c d => gv c ≤ gv d) :=
    ⟨fun c d e h1 h2 => le_trans h1 h2⟩
  set s := bounds.insertionSort (fun c d => gv c ≤ gv d) with hsdef
  have hsorted : s.Pairwise (fun c d => gv c ≤ gv d) :=
    List.sorted_insertionSort (fun c d => gv c ≤ gv d) bounds
  have hperm : List.Perm s bounds := List.perm_insertionSort _ bounds
  have hndx : (s.map ElementBounds.index).Nodup :=
    ((hperm.map ElementBounds.index).nodup_iff).mpr hnd
  set p := (fun c => decide (gv c ≤ gv x)) with hpdef
  set P := s.takeWhile p with hPdef
  set Q := s.dropWhile p with hQdef
  have hPQ : P ++ Q = s := List.takeWhile_append_dropWhile p s
  have hPle : ∀ c ∈ P, gv c ≤ gv x := by
    intro c hc
    have := List.mem_takeWhile_imp hc
    simpa [hpdef] using this
  have hQsub : List.Sublist Q s := List.dropWhile_sublist p
  have hQge : ∀ c ∈ Q, gv y ≤ gv c := by
    intro c hc
    obtain ⟨q0, Q2, hQcons⟩ := List.exists_cons_of_ne_nil (List.ne_nil_of_mem hc)
    have hq0f : p q0 = false := dropWhile_head_false p s q0 Q2 hQcons
    have hq0x : gv x < gv q0 := by
      by_contra hcon
      have hple : p q0 = true := by
        simp only [hpdef, decide_eq_true_eq]
        exact not_lt.mp hcon
      rw [hple] at hq0f
      simp at hq0f
    have hq0mem : q0 ∈ Q := by
      rw [hQcons]
      exact List.mem_cons_self _ _
    have hq0y : gv y ≤ gv q0 := by
      rcases hmid q0 (hperm.mem_iff.mp (hQsub.subset hq0mem)) with h | h
      · exact absurd h (not_le.mpr hq0x)
      · exact h
    have hQpair : Q.Pairwise (fun c d => gv c ≤ gv d) := hsorted.sublist hQsub
    rw [hQcons] at hc hQpair
    rcases List.mem_cons.mp hc with rfl | hc2
    · exact hq0y
    · exact le_trans hq0y ((List.pairwise_cons.mp hQpair).1 c hc2)
  have hxP : x ∈ P := by
    have hxs : x ∈ s := (List.mem_insertionSort _).mpr hx
    rw [← hPQ] at hxs
    rcases List.mem_append.mp hxs with h | h
    · exact h
    · exact absurd (hQge x h) (not_le.mpr hxy)
  have hyQ : y ∈ Q := by
    have hys : y ∈ s := (List.mem_insertionSort _).mpr hy
    rw [← hPQ] at hys
    rcases List.mem_append.mp hys with h | h
    · exact absurd (hPle y h) (not_le.mpr hxy)
    · exact h
  obtain ⟨h0, P', hPcons⟩ : ∃ h0 P', P = h0 :: P' := by
    cases hP : P with
    | nil => rw [hP] at hxP; simp at hxP
    | cons h t => exact ⟨h, t, rfl⟩
  have hseq : s = h0 :: (P' ++ Q) := by
    rw [← hPQ, hPcons]; simp
  have hgs : g ∈ groupScan gv th (gv h0) [h0.index] (P' ++ Q) := by
    have : groupByValue bounds gv th =
        groupScan gv th (gv h0) [h0.index] (P' ++ Q) := by
      unfold groupByValue
      rw [← hsdef, hseq]
      rfl
    rwa [this] at hg
  have hsplit := groupScan_split gv th (gv x) (gv y) hfar P' Q (gv h0)
    [h0.index]
    (hPle h0 (hPcons ▸ List.mem_cons_self _ _))
    (fun c hc => hPle c (hPcons ▸ List.mem_cons_of_mem _ hc))
    hQge g hgs
  have hdisj : List.Disjoint (P.map ElementBounds.index)
      (Q.map ElementBounds.index) := by
    have : ((P ++ Q).map ElementBounds.index).Nodup := by rw [hPQ]; exact hndx
    rw [List.map_append] at this
    exact (List.nodup_append.mp this).2.2
  rcases hsplit with hL | hR
  · have hyg := hL y.index hand.2
    have hyP : y.index ∈ P.map ElementBounds.index := by
      rcases hyg with h | h
      · simp only [List.mem_singleton] at h
        exact h ▸ List.mem_map_of_mem _ (hPcons ▸ List.mem_cons_self _ _)
      · rw [hPcons]
        simpa using Or.inr (by simpa using h)
    exact hdisj hyP (List.mem_map_of_mem _ hyQ)
  · have hxg := hR x.index hand.1
    exact hdisj (List.mem_map_of_mem _ hxP) hxg

/-- Two bounds whose values differ by more than the threshold, with no third
bound strictly between them, never share a group of `groupByValue`. -/
theorem groupByValue_separated (bounds : List ElementBounds)
    (gv : ElementBounds → ℚ) (th : ℚ) (hth : 0 ≤ th) (a b : ElementBounds)
    (ha : a ∈ bounds) (hb : b ∈ bounds)
    (hnd : (bounds.map ElementBounds.index).Nodup)
    (hfar : th < jsAbs (gv a - gv b))
    (hmid : ∀ c ∈ bounds, gv c ≤ min (gv a) (gv b) ∨ max (gv a) (gv b) ≤ gv c) :
    ∀ g ∈ groupByValue bounds gv th, ¬(a.index ∈ g ∧ b.index ∈ g) := by
  have hne : gv a ≠ gv b := by
    intro hh
    rw [hh] at hfar
    simp [jsAbs] at hfar
    linarith
  rcases lt_or_gt_of_ne hne with hlt | hgt
  · have hfar2 : th < gv b - gv a := by
      have : jsAbs (gv a - gv b) = gv b - gv a := by
        unfold jsAbs
        rw [if_pos (by linarith)]
        ring
      linarith [hfar, this.symm.le]
    have hmid2 : ∀ c ∈ bounds, gv c ≤ gv a ∨ gv b ≤ gv c := by
      intro c hc
      rcases hmid c hc with h | h
      · exact Or.inl (le_trans h (min_le_left _ _))
      · exact Or.inr (le_trans (le_max_right _ _) h)
    exact groupByValue_separated_aux bounds gv th a b ha hb hnd hlt hfar2 hmid2
  · have hfar2 : th < gv a - gv b := by
      have : jsAbs (gv a - gv b) = gv a - gv b := by
        unfold jsAbs
        rw [if_neg (by linarith)]
      linarith [hfar, this.symm.le]
    have hmid2 : ∀ c ∈ bounds, gv c ≤ gv b ∨ gv a ≤ gv c := by
      intro c hc
      rcases hmid c hc with h | h
      · exact Or.inl (le_trans h (min_le_right _ _))
      · exact Or.inr (le_trans (le_max_left _ _) h)
    intro g hg hand
    exact groupByValue_separated_aux bounds gv th b a hb ha hnd hgt hfar2 hmid2
      g hg ⟨hand.2, hand.1⟩

/-- The element indices carried by `calculateBounds` are the positions
`0, 1, …` and hence distinct. -/
theorem calculateBounds_index_nodup (elements : List RecognizedElement) :
    ((calculateBounds elements).map ElementBounds.index).Nodup := by
  unfold calculateBounds
  rw [List.map_map]
  exact List.nodup_enum_map_fst elements

/-! ## Recognition orchestrator (`services/index.ts`) -/

/-- `ImageAnalysisResult` from `types.ts`. -/
structure ImageAnalysisResult where
  width : ℚ
  height : ℚ
  elements : List RecognizedElement
  dominantColors : Option (List ColorInfo) := none
  layoutStructure : Option LayoutStructure := none
  success : Bool
  error : Option (List Char) := none
  deriving DecidableEq, Repr

/-- The configuration retained by a successfully constructed
`OpenApiVisionService` (constructor defaults applied). -/
structure OpenApiVisionService where
  endpoint : List Char
  apiKey : List Char
  model : List Char
  maxTokens : ℕ := 4096
  timeout : ℕ := 30000
  deriving DecidableEq, Repr

/-- `new OpenApiVisionService(config)`: throws when `endpoint` or `apiKey`
is missing or empty (JS falsy); the manager catches the throw and keeps no
service, modelled by `none`. -/
def mkOpenApiVisionService (endpoint apiKey model : Option (List Char)) :
    Option OpenApiVisionService :=
  match endpoint, apiKey with
  | some e, some k =>
    if e = [] ∨ k = [] then none
    else some { endpoint := e, apiKey := k,
                model := model.getD ("gpt-4-vision-preview".data) }
  | _, _ => none

/-- `ImageRecognitionConfig` from `types.ts` (all fields optional). -/
structure ImageRecognitionConfig where
  openApiProvider : Option (List Char) := none
  openApiEndpoint : Option (List Char) := none
  openApiKey : Option (List Char) := none
  openApiModel : Option (List Char) := none
  enableLocalFallback : Option Bool := none
  colorThreshold : Option ℚ := none
  minRegionSize : Option ℚ := none
  deriving DecidableEq, Repr

/-- JS truthiness of an optional string: `undefined` and `""` are falsy. -/
def truthyStr : Option (List Char) → Bool
  | none => false
  | some s => decide (s ≠ [])

/-- The state of an `ImageRecognitionManager` after its constructor ran. -/
structure ImageRecognitionManager where
  openApiService : Option OpenApiVisionService
  enableLocalFallback : Bool
  colorThreshold : Option ℚ
  minRegionSize : Option ℚ
  deriving DecidableEq, Repr

/-- The `ImageRecognitionManager` constructor: local-fallback defaults to
true; the OpenAPI service is constructed only when `openApiKey` is truthy,
and construction fails (caught, service stays null) when the endpoint or
key is missing/empty. -/
def mkImageRecognitionManager (config : ImageRecognitionConfig) :
    ImageRecognitionManager :=
  { enableLocalFallback := config.enableLocalFallback.getD true
    colorThreshold := config.colorThreshold
    minRegionSize := config.minRegionSize
    openApiService :=
      if truthyStr config.openApiKey then
        mkOpenApiVisionService config.openApiEndpoint config.openApiKey
          config.openApiModel
      else none }

/-- The preferred-service selector (`ServiceType` in `services/index.ts`);
the spec calls the remote selector `remote`, the code `openapi`. -/
inductive ServiceType where
  | local
  | openapi
  deriving DecidableEq, Repr

/-- Observable delegated calls, used to state I/O-freedom properties:
`remoteAnalyze` is the network call of `OpenApiVisionService.analyze`,
`localAnalyze` the run of `LocalImageProcessor.analyze`. -/
inductive CallEvent where
  | remoteAnalyze
  | localAnalyze
  deriving DecidableEq, Repr

/-- Environment oracle for the delegated calls: whether the local processor
reports availability (Canvas present), and the results that
`LocalImageProcessor.analyze` / `OpenApiVisionService.analyze` would return
on the given image (both implementations catch internally and return
tagged failure results rather than raising). -/
structure OrchestratorEnv where
  localAvailable : Bool
  localOutcome : ImageAnalysisResult
  remoteOutcome : ImageAnalysisResult
  deriving DecidableEq, Repr

/-- `ImageRecognitionManager.tryLocal`, paired with the call trace. -/
def tryLocal (env : OrchestratorEnv) : ImageAnalysisResult × List CallEvent :=
  if env.localAvailable then (env.localOutcome, [CallEvent.localAnalyze])
  else ({ width := 0, height := 0, elements := [], success := false,
          error := some "local processor unavailable".data }, [])

/-- `OpenApiVisionService.isAvailable`: both configuration strings truthy. -/
def openApiIsAvailable (svc : OpenApiVisionService) : Bool :=
  decide (svc.endpoint ≠ [] ∧ svc.apiKey ≠ [])

/-- `ImageRecognitionManager.tryOpenApi`, paired with the call trace: no
service → unconfigured failure without network I/O; service unavailable →
failure without network I/O; otherwise the remote call runs. -/
def tryOpenApi (mgr : ImageRecognitionManager) (env : OrchestratorEnv) :
    ImageAnalysisResult × List CallEvent :=
  match mgr.openApiService with
  | none =>
    ({ width := 0, height := 0, elements := [], success := false,
       error := some "openapi service not configured".data }, [])
  | some svc =>
    if openApiIsAvailable svc then (env.remoteOutcome, [CallEvent.remoteAnalyze])
    else ({ width := 0, height := 0, elements := [], success := false,
            error := some "openapi service unavailable".data }, [])

/-- The layout post-pass of `ImageRecognitionManager.analyze`: on a
successful result with a non-empty element list and layout analysis
enabled, fill `layoutStructure` and regenerate the element list with
constraints (the manager's `LayoutAnalyzer` is built with default config). -/
def applyLayoutPass (enableLayoutAnalysis : Bool)
    (result : ImageAnalysisResult) : ImageAnalysisResult :=
  if result.success = true ∧ enableLayoutAnalysis = true ∧
      result.elements ≠ [] then
    { result with
      layoutStructure :=
        some (analyzeStructure {} result.elements result.width result.height)
      elements :=
        generateAllConstraints {} result.elements result.width result.height }
  else result

/-- `ImageRecognitionManager.analyze`: remote path only when preferred and
configured, local fallback on remote failure when enabled, then the layout
post-pass.  Returns the result and the trace of delegated calls. -/
def managerAnalyze (mgr : ImageRecognitionManager) (env : OrchestratorEnv)
    (preferredService : ServiceType) (enableLayoutAnalysis : Bool) :
    ImageAnalysisResult × List CallEvent :=
  let step :=
    match preferredService, mgr.openApiService with
    | .openapi, some _ =>
      let r1 := tryOpenApi mgr env
      if r1.1.success = false ∧ mgr.enableLocalFallback = true then
        let r2 := tryLocal env
        (r2.1, r1.2 ++ r2.2)
      else r1
    | _, _ => tryLocal env
  (applyLayoutPass enableLayoutAnalysis step.1, step.2)

/-- The layout post-pass leaves failed results untouched. -/
theorem applyLayoutPass_failure (enableLayout : Bool)
    (r : ImageAnalysisResult) (h : r.success = false) :
    applyLayoutPass enableLayout r = r := by
  unfold applyLayoutPass
  rw [if_neg]
  intro hc
  rw [h] at hc
  exact Bool.false_ne_true hc.1

/-- The layout post-pass on a successful, non-empty, enabled result fills
`layoutStructure` and regenerates the elements with constraints. -/
theorem applyLayoutPass_success (enableLayout : Bool)
    (r : ImageAnalysisResult) (h1 : r.success = true) (h2 : enableLayout = true)
    (h3 : r.elements ≠ []) :
    applyLayoutPass enableLayout r =
      { r with
        layoutStructure :=
          some (analyzeStructure {} r.elements r.width r.height)
        elements :=
          generateAllConstraints {} r.elements r.width r.height } := by
  unfold applyLayoutPass
  rw [if_pos ⟨h1, h2, h3⟩]

/-- With a configured adapter and preferred remote service, the remote
branch runs first and the result is dispatched per success/fallback. -/
theorem managerAnalyze_openapi_configured (mgr : ImageRecognitionManager)
    (env : OrchestratorEnv) (enableLayout : Bool) (svc : OpenApiVisionService)
    (hsvc : mgr.openApiService = some svc) :
    ((tryOpenApi mgr env).1.success = true →
      managerAnalyze mgr env .openapi enableLayout =
        (applyLayoutPass enableLayout (tryOpenApi mgr env).1,
         (tryOpenApi mgr env).2)) ∧
    ((tryOpenApi mgr env).1.success = false →
      mgr.enableLocalFallback = true →
      managerAnalyze mgr env .openapi enableLayout =
        (applyLayoutPass enableLayout (tryLocal env).1,
         (tryOpenApi mgr env).2 ++ (tryLocal env).2)) ∧
    ((tryOpenApi mgr env).1.success = false →
      mgr.enableLocalFallback = false →
      managerAnalyze mgr env .openapi enableLayout =
        ((tryOpenApi mgr env).1, (tryOpenApi mgr env).2)) := by
  refine ⟨?_, ?_, ?_⟩
  · intro hsucc
    simp only [managerAnalyze, hsvc]
    rw [if_neg]
    intro hc
    rw [hsucc] at hc
    exact absurd hc.1 (by simp)
  · intro hsucc hfb
    simp only [managerAnalyze, hsvc]
    rw [if_pos ⟨hsucc, hfb⟩]
  · intro hsucc hfb
    simp only [managerAnalyze, hsvc]
    rw [if_neg, applyLayoutPass_failure enableLayout _ hsucc]
    intro hc
    rw [hfb] at hc
    exact Bool.false_ne_true hc.2

/-- With preferred local service, or with no configured adapter, the local
processor runs directly. -/
theorem managerAnalyze_local_path (mgr : ImageRecognitionManager)
    (env : OrchestratorEnv) (enableLayout : Bool) (pref : ServiceType)
    (h : pref = .local ∨ mgr.openApiService = none) :
    managerAnalyze mgr env pref enableLayout =
      (applyLayoutPass enableLayout (tryLocal env).1, (tryLocal env).2) := by
  rcases h with rfl | hnone
  · rfl
  · cases pref
    · rfl
    · simp only [managerAnalyze, hnone]

/-- Every call of `managerAnalyze` attempts each delegated branch at most
once. -/
theorem managerAnalyze_each_branch_once (mgr : ImageRecognitionManager)
    (env : OrchestratorEnv) (pref : ServiceType) (enableLayout : Bool) :
    (managerAnalyze mgr env pref enableLayout).2.count
        CallEvent.remoteAnalyze ≤ 1 ∧
    (managerAnalyze mgr env pref enableLayout).2.count
        CallEvent.localAnalyze ≤ 1 := by
  have hloc : (tryLocal env).2 = [] ∨
      (tryLocal env).2 = [CallEvent.localAnalyze] := by
    unfold tryLocal
    cases env.localAvailable <;> simp
  have hrem : (tryOpenApi mgr env).2 = [] ∨
      (tryOpenApi mgr env).2 = [CallEvent.remoteAnalyze] := by
    unfold tryOpenApi
    cases hsvc : mgr.openApiService with
    | none => simp
    | some svc => cases hav : openApiIsAvailable svc <;> simp [hav]
  cases pref
  · rcases hloc with h | h <;>
      simp [managerAnalyze, h]
  · cases hsvc : mgr.openApiService with
    | none =>
      rcases hloc with h | h <;>
        simp [managerAnalyze, hsvc, h]
    | some svc =>
      simp only [managerAnalyze, hsvc]
      by_cases hc : (tryOpenApi mgr env).1.success = false ∧
          mgr.enableLocalFallback = true
      · rw [if_pos hc]
        rcases hloc with h | h <;> rcases hrem with h2 | h2 <;>
          simp [h, h2]
      · rw [if_neg hc]
        rcases hrem with h2 | h2 <;> simp [h2]

/-- C2: with preferred service `remote` (`openapi`) and a configured
adapter, the remote call is attempted first; on remote failure with local
fallback enabled the Region Segmenter is attempted exactly once and its
outcome (after the post-pass) is final; with fallback disabled the remote
failure is returned directly; with preferred `local` or no adapter the
local processor runs directly.  Each branch is attempted at most once per
call, and on a successful outcome with non-empty elements and layout
analysis enabled the Layout Analyzer post-pass runs before returning. -/
theorem orchestrator_transition_logic (mgr : ImageRecognitionManager)
    (env : OrchestratorEnv) (enableLayout : Bool) :
    (∀ svc, mgr.openApiService = some svc →
      ((tryOpenApi mgr env).1.success = true →
        managerAnalyze mgr env .openapi enableLayout =
          (applyLayoutPass enableLayout (tryOpenApi mgr env).1,
           (tryOpenApi mgr env).2)) ∧
      ((tryOpenApi mgr env).1.success = false →
        mgr.enableLocalFallback = true →
        managerAnalyze mgr env .openapi enableLayout =
          (applyLayoutPass enableLayout (tryLocal env).1,
           (tryOpenApi mgr env).2 ++ (tryLocal env).2)) ∧
      ((tryOpenApi mgr env).1.success = false →
        mgr.enableLocalFallback = false →
        managerAnalyze mgr env .openapi enableLayout =
          ((tryOpenApi mgr env).1, (tryOpenApi mgr env).2))) ∧
    (∀ pref, pref = .local ∨ mgr.openApiService = none →
      managerAnalyze mgr env pref enableLayout =
        (applyLayoutPass enableLayout (tryLocal env).1, (tryLocal env).2)) ∧
    (∀ pref,
      (managerAnalyze mgr env pref enableLayout).2.count
          CallEvent.remoteAnalyze ≤ 1 ∧
      (managerAnalyze mgr env pref enableLayout).2.count
          CallEvent.localAnalyze ≤ 1) ∧
    (∀ r : ImageAnalysisResult, r.success = true → enableLayout = true →
      r.elements ≠ [] →
      applyLayoutPass enableLayout r =
        { r with
          layoutStructure :=
            some (analyzeStructure {} r.elements r.width r.height)
          elements :=
            generateAllConstraints {} r.elements r.width r.height }) ∧
    (∀ r : ImageAnalysisResult, r.success = false →
      applyLayoutPass enableLayout r = r) := by
  refine ⟨?_, ?_, ?_, ?_, ?_⟩
  · intro svc hsvc
    exact managerAnalyze_openapi_configured mgr env enableLayout svc hsvc
  · intro pref h
    exact managerAnalyze_local_path mgr env enableLayout pref h
  · intro pref
    exact managerAnalyze_each_branch_once mgr env pref enableLayout
  · intro r h1 h2 h3
    exact applyLayoutPass_success enableLayout r h1 h2 h3
  · intro r h
    exact applyLayoutPass_failure enableLayout r h

/-- A small concrete manager with a configured adapter, for the witness. -/
def sampleManager : ImageRecognitionManager :=
  mkImageRecognitionManager
    { openApiEndpoint := some ['e'], openApiKey := some ['k'] }

/-- The service the sample manager ends up holding. -/
def sampleService : OpenApiVisionService :=
  { endpoint := ['e'], apiKey := ['k'], model := "gpt-4-vision-preview".data }

/-- A concrete environment whose remote call fails and whose local call
succeeds with no elements. -/
def sampleEnv : OrchestratorEnv :=
  { localAvailable := true
    localOutcome := { width := 10, height := 10, elements := [],
                      success := true }
    remoteOutcome := { width := 0, height := 0, elements := [],
                       success := false, error := some ['b'] } }

/-- Witness for C2 at a concrete input: remote failure with fallback
enabled makes the local outcome final. -/
theorem orchestrator_transition_logic_witness :
    sampleManager.openApiService = some sampleService ∧
    (tryOpenApi sampleManager sampleEnv).1.success = false ∧
    sampleManager.enableLocalFallback = true ∧
    managerAnalyze sampleManager sampleEnv .openapi true =
      (applyLayoutPass true (tryLocal sampleEnv).1,
       (tryOpenApi sampleManager sampleEnv).2 ++ (tryLocal sampleEnv).2) := by
  have h1 : sampleManager.openApiService = some sampleService := by
    rfl
  have h2 : (tryOpenApi sampleManager sampleEnv).1.success = false := by rfl
  have h3 : sampleManager.enableLocalFallback = true := by rfl
  exact ⟨h1, h2, h3,
    ((orchestrator_transition_logic sampleManager sampleEnv true).1 _ h1).2.1
      h2 h3⟩

/-- A configuration selecting the remote path with a present-but-empty
apiKey and local fallback disabled. -/
def emptyKeyConfig : ImageRecognitionConfig :=
  { openApiEndpoint := some ['h'], openApiKey := some [],
    enableLocalFallback := some false }

/-- An environment in which the local processor is available and would
succeed with an empty element list. -/
def emptyKeyEnv : OrchestratorEnv :=
  { localAvailable := true
    localOutcome := { width := 10, height := 10, elements := [],
                      success := true }
    remoteOutcome := { width := 0, height := 0, elements := [],
                       success := false, error := some ['x'] } }

/-- C5 counterexample: with an empty `apiKey` and local fallback disabled,
the claim predicts the Orchestrator returns a ServiceUnconfigured failure;
the code never surfaces such an error — the constructor registers no
adapter, so `analyze` goes directly to the local processor (even though
fallback is disabled) and here returns its success with no error. -/
theorem orchestrator_empty_key_counterexample :
    (managerAnalyze (mkImageRecognitionManager emptyKeyConfig) emptyKeyEnv
        .openapi true).1.success = true ∧
    (managerAnalyze (mkImageRecognitionManager emptyKeyConfig) emptyKeyEnv
        .openapi true).1.error = none ∧
    (managerAnalyze (mkImageRecognitionManager emptyKeyConfig) emptyKeyEnv
        .openapi true).2 = [CallEvent.localAnalyze] ∧
    (mkImageRecognitionManager emptyKeyConfig).enableLocalFallback = false ∧
    (mkImageRecognitionManager emptyKeyConfig).openApiService = none :=
  ⟨rfl, rfl, rfl, rfl, rfl⟩

/-- C5 (amended): whenever the configured `apiKey` is missing or empty, the
constructor registers no remote adapter, so `analyze` with preferred
service `openapi` performs no network I/O and proceeds directly to local
segmentation regardless of the local-fallback flag; no ServiceUnconfigured
error is surfaced on this path. -/
theorem orchestrator_empty_key_goes_local (cfg : ImageRecognitionConfig)
    (env : OrchestratorEnv) (enableLayout : Bool)
    (hkey : truthyStr cfg.openApiKey = false) :
    (mkImageRecognitionManager cfg).openApiService = none ∧
    managerAnalyze (mkImageRecognitionManager cfg) env .openapi enableLayout =
      (applyLayoutPass enableLayout (tryLocal env).1, (tryLocal env).2) ∧
    (managerAnalyze (mkImageRecognitionManager cfg) env .openapi
        enableLayout).2.count CallEvent.remoteAnalyze = 0 := by
  have hnone : (mkImageRecognitionManager cfg).openApiService = none := by
    simp [mkImageRecognitionManager, hkey]
  refine ⟨hnone, managerAnalyze_local_path _ env enableLayout .openapi
    (Or.inr hnone), ?_⟩
  rw [managerAnalyze_local_path _ env enableLayout .openapi (Or.inr hnone)]
  unfold tryLocal
  cases env.localAvailable <;> simp

/-- Witness for the amended C5 theorem at the concrete empty-key inputs. -/
theorem orchestrator_empty_key_goes_local_witness :
    (mkImageRecognitionManager emptyKeyConfig).openApiService = none ∧
    managerAnalyze (mkImageRecognitionManager emptyKeyConfig) emptyKeyEnv
        .openapi true =
      (applyLayoutPass true (tryLocal emptyKeyEnv).1,
       (tryLocal emptyKeyEnv).2) ∧
    (managerAnalyze (mkImageRecognitionManager emptyKeyConfig) emptyKeyEnv
        .openapi true).2.count CallEvent.remoteAnalyze = 0 :=
  orchestrator_empty_key_goes_local emptyKeyConfig emptyKeyEnv true rfl

/-! ## Region segmenter (`localImageProcessor.ts`)

The decoded image is a width × height RGBA buffer; `pix` gives the r,g,b
bytes at integer coordinates (the alpha byte is never read by the analyzed
code).  The JS grid scan iterates with a possibly fractional step
`gridSize = max(20, min(width,height)/20)` and indexes the typed array at
`(y*width+x)*4`; a fractional index reads `undefined` and poisons the
per-cell colour sums to `NaN`, which the embedding models with `Option`. -/

/-- A decoded image: dimensions plus the pixel buffer. -/
structure Image where
  width : ℕ
  height : ℕ
  pix : ℕ → ℕ → ℕ × ℕ × ℕ

/-- `LocalProcessorConfig` after constructor defaults
(`colorThreshold ?? 30`, `minRegionSize ?? 20`, `maxRegions ?? 50`). -/
structure LocalProcessorConfig where
  colorThreshold : ℚ := 30
  minRegionSize : ℚ := 20
  maxRegions : ℕ := 50
  deriving DecidableEq, Repr

/-- `Region` (internal to `localImageProcessor.ts`). -/
structure Region where
  x : ℚ
  y : ℚ
  width : ℚ
  height : ℚ
  color : ColorInfo
  pixelCount : ℕ
  deriving DecidableEq, Repr

/-- Reading the RGBA buffer at rational coordinates: defined (integer, in
bounds) reads yield the pixel; anything else is JS `undefined`, which turns
the running sums into `NaN`. -/
def pixAt (img : Image) (x y : ℚ) : Option (ℕ × ℕ × ℕ) :=
  if x.den = 1 ∧ y.den = 1 ∧ 0 ≤ x ∧ x < img.width ∧ 0 ≤ y ∧ y < img.height
  then some (img.pix x.num.toNat y.num.toNat)
  else none

/-- The sample points of `for (v = start; v < limit; v++)`. -/
def sampleSteps (start limit : ℚ) : List ℚ :=
  (List.range (Int.toNat ⌈limit - start⌉)).map fun k : ℕ => start + (k : ℚ)

/-- The scan positions of `for (v = 0; v < limit; v += g)` (`g > 0`). -/
def gridPositions (limit g : ℚ) : List ℚ :=
  (List.range (Int.toNat ⌈limit / g⌉)).map fun k : ℕ => (k : ℚ) * g

/-- The grid cell size `max(20, min(width, height) / 20)`. -/
def gridSizeOf (width height : ℕ) : ℚ :=
  max 20 (((min width height : ℕ) : ℚ) / 20)

/-- One `findRegion` loop iteration: `totalR += data[idx]` etc., with an
`undefined` read poisoning the sums to `NaN` (`none`). -/
def pixelStep (img : Image) (acc : Option (ℚ × ℚ × ℚ)) (p : ℚ × ℚ) :
    Option (ℚ × ℚ × ℚ) :=
  match acc, pixAt img p.1 p.2 with
  | some t, some q => some (t.1 + q.1, t.2.1 + q.2.1, t.2.2 + q.2.2)
  | _, _ => none

/-- The running `totalR/totalG/totalB` sums of `findRegion` over a list of
sample points. -/
def pixelSum (img : Image) (pts : List (ℚ × ℚ)) : Option (ℚ × ℚ × ℚ) :=
  pts.foldl (pixelStep img) (some (0, 0, 0))

/-- `LocalImageProcessor.findRegion`: average the cell's pixels; a sample
at a fractional coordinate reads `undefined` and poisons all three sums. -/
def findRegion (img : Image) (startX startY gridSize : ℚ) : Option Region :=
  let endX := min (startX + gridSize) (img.width : ℚ)
  let endY := min (startY + gridSize) (img.height : ℚ)
  let pts := (sampleSteps startY endY).flatMap fun yy =>
    (sampleSteps startX endX).map fun xx => (xx, yy)
  let count := pts.length
  let total := pixelSum img pts
  if count = 0 then none
  else
    some
      { x := startX, y := startY
        width := endX - startX, height := endY - startY
        color :=
          match total with
          | some t =>
            { r := some (t.1 / count / 255), g := some (t.2.1 / count / 255)
              b := some (t.2.2 / count / 255) }
          | none => { r := none, g := none, b := none }
        pixelCount := count }

/-- The `visited` key `floor(x/gridSize), floor(y/gridSize)`. -/
def cellKey (x y g : ℚ) : ℤ × ℤ := (⌊x / g⌋, ⌊y / g⌋)

/-- The double scan loop of `detectRegions`: row-major over the grid cells,
skipping visited keys, keeping regions with enough pixels, stopping once
`maxRegions` regions have been collected. -/
def scanCells (img : Image) (cfg : LocalProcessorConfig) (g : ℚ) :
    List (ℚ × ℚ) → List (ℤ × ℤ) → List Region → List Region
  | [], _, regions => regions
  | (x, y) :: rest, visited, regions =>
    if cellKey x y g ∈ visited then scanCells img cfg g rest visited regions
    else
      let regions2 :=
        match findRegion img x y g with
        | some r =>
          if cfg.minRegionSize ≤ (r.pixelCount : ℚ) then regions ++ [r]
          else regions
        | none => regions
      if cfg.maxRegions ≤ regions2.length then regions2
      else scanCells img cfg g rest (cellKey x y g :: visited) regions2

/-- The `colorDiff` sum of `shouldMerge` (`NaN` channels poison it). -/
def colorDiffOf (ca cb : ColorInfo) : Option ℚ :=
  match ca.r, ca.g, ca.b, cb.r, cb.g, cb.b with
  | some ar, some ag, some abl, some br, some bg, some bbl =>
    some (jsAbs (ar - br) * 255 + jsAbs (ag - bg) * 255 +
      jsAbs (abl - bbl) * 255)
  | _, _, _, _, _, _ => none

/-- `colorDiff > threshold` as in JS: a `NaN` difference compares false. -/
def exceedsThreshold (th : ℚ) (d : Option ℚ) : Bool :=
  match d with
  | some x => decide (x > th)
  | none => false

/-- `LocalImageProcessor.shouldMerge`: color similarity (a `NaN` sum never
exceeds the threshold, as in JS) and axis-wise adjacency/overlap. -/
def shouldMerge (cfg : LocalProcessorConfig) (a b : Region) : Bool :=
  if exceedsThreshold (cfg.colorThreshold * 3) (colorDiffOf a.color b.color)
  then false
  else
    let gap : ℚ := 5
    let adjacentX := decide (jsAbs (a.x + a.width - b.x) ≤ gap) ||
      decide (jsAbs (b.x + b.width - a.x) ≤ gap)
    let adjacentY := decide (jsAbs (a.y + a.height - b.y) ≤ gap) ||
      decide (jsAbs (b.y + b.height - a.y) ≤ gap)
    let overlapX := decide (a.x < b.x + b.width ∧ a.x + a.width > b.x)
    let overlapY := decide (a.y < b.y + b.height ∧ a.y + a.height > b.y)
    (adjacentX && overlapY) || (adjacentY && overlapX)

/-- The pixel-count-weighted average of one colour channel (`NaN` in →
`NaN` out). -/
def wavgChannel (ca : Option ℚ) (na : ℕ) (cb : Option ℚ) (nb : ℕ) : Option ℚ :=
  match ca, cb with
  | some qa, some qb => some ((qa * na + qb * nb) / (na + nb))
  | _, _ => none

/-- `LocalImageProcessor.mergeTwo`: bounding-box union, weighted colour. -/
def mergeTwo (a b : Region) : Region :=
  let x := min a.x b.x
  let y := min a.y b.y
  let right := max (a.x + a.width) (b.x + b.width)
  let bottom := max (a.y + a.height) (b.y + b.height)
  { x := x, y := y, width := right - x, height := bottom - y
    color :=
      { r := wavgChannel a.color.r a.pixelCount b.color.r b.pixelCount
        g := wavgChannel a.color.g a.pixelCount b.color.g b.pixelCount
        b := wavgChannel a.color.b a.pixelCount b.color.b b.pixelCount }
    pixelCount := a.pixelCount + b.pixelCount }

/-- One `i`-iteration of the merge pass: absorb into `cur` every
still-unused later region that matches, returning the grown region and the
unabsorbed leftovers in order (the JS code tracks the same set with a
`used` index set). -/
def absorb (cfg : LocalProcessorConfig) : Region → List Region →
    Region × List Region
  | cur, [] => (cur, [])
  | cur, r :: rest =>
    if shouldMerge cfg cur r then absorb cfg (mergeTwo cur r) rest
    else
      let p := absorb cfg cur rest
      (p.1, r :: p.2)

theorem absorb_length_le (cfg : LocalProcessorConfig) :
    ∀ (l : List Region) (cur : Region),
      (absorb cfg cur l).2.length ≤ l.length := by
  intro l
  induction l with
  | nil => intro cur; simp [absorb]
  | cons r rest ih =>
    intro cur
    by_cases h : shouldMerge cfg cur r
    · simp only [absorb, if_pos h]
      exact le_trans (ih _) (Nat.le_succ _)
    · simp only [absorb, if_neg h, List.length_cons]
      exact Nat.succ_le_succ (ih cur)

/-- The full single merge pass (`mergeRegions` body for ≥ 2 regions). -/
def mergeAll (cfg : LocalProcessorConfig) : List Region → List Region
  | [] => []
  | r :: rest =>
    have hlt : (absorb cfg r rest).2.length < rest.length + 1 :=
      Nat.lt_succ_of_le (absorb_length_le cfg rest r)
    (absorb cfg r rest).1 :: mergeAll cfg (absorb cfg r rest).2
termination_by l => l.length

/-- `LocalImageProcessor.mergeRegions`. -/
def mergeRegions (cfg : LocalProcessorConfig) (regions : List Region) :
    List Region :=
  if regions.length ≤ 1 then regions else mergeAll cfg regions

/-- `LocalImageProcessor.detectRegions`: grid scan then single merge pass. -/
def detectRegions (img : Image) (cfg : LocalProcessorConfig) : List Region :=
  let g := gridSizeOf img.width img.height
  let cells := (gridPositions img.height g).flatMap fun y =>
    (gridPositions img.width g).map fun x => (x, y)
  mergeRegions cfg (scanCells img cfg g cells [] [])

/-- `LocalImageProcessor.convertRegionsToElements`. -/
def convertRegionsToElements (regions : List Region) :
    List RecognizedElement :=
  regions.map fun region =>
    { type := .rectangle, x := region.x, y := region.y,
      width := region.width, height := region.height,
      color := some region.color }

/-- Association-list tally of quantized colours in insertion order
(the JS `Map` keyed by the `r,g,b` string). -/
def bumpColorCount : List ((ℤ × ℤ × ℤ) × ℕ) → ℤ × ℤ × ℤ →
    List ((ℤ × ℤ × ℤ) × ℕ)
  | [], v => [(v, 1)]
  | (k, c) :: rest, v =>
    if k = v then (k, c + 1) :: rest else (k, c) :: bumpColorCount rest v

/-- `LocalImageProcessor.extractDominantColors`: stride-sampled pixels,
quantized to 32-level buckets with `Math.round`, tallied, sorted by count
descending, top five converted back to normalized colours. -/
def extractDominantColors (img : Image) : List ColorInfo :=
  let totalPixels := img.width * img.height
  let step := max 4 (totalPixels / 100000)
  let count := (totalPixels + step - 1) / step
  let samples := (List.range count).map fun k =>
    let pidx := k * step
    img.pix (pidx % img.width) (pidx / img.width)
  let quantized := samples.map fun q =>
    (jsRound ((q.1 : ℚ) / 32) * 32, jsRound ((q.2.1 : ℚ) / 32) * 32,
     jsRound ((q.2.2 : ℚ) / 32) * 32)
  let tallies := quantized.foldl bumpColorCount []
  let sorted := tallies.insertionSort fun p1 p2 => p2.2 ≤ p1.2
  (sorted.take 5).map fun p =>
    { r := some ((p.1.1 : ℚ) / 255), g := some ((p.1.2.1 : ℚ) / 255),
      b := some ((p.1.2.2 : ℚ) / 255) }

/-! ### Uniform-image behaviour of the segmenter -/

/-- The colour every cell of a uniform image averages to. -/
def uniColor (c : ℕ × ℕ × ℕ) : ColorInfo :=
  { r := some ((c.1 : ℚ) / 255), g := some ((c.2.1 : ℚ) / 255),
    b := some ((c.2.2 : ℚ) / 255) }

theorem ceil_sub_natCast (a b : ℕ) :
    Int.toNat ⌈(b : ℚ) - (a : ℚ)⌉ = b - a := by
  have h : ((b : ℚ) - (a : ℚ)) = (((b : ℤ) - (a : ℤ) : ℤ) : ℚ) := by
    push_cast
    ring
  rw [h, Int.ceil_intCast]
  omega

theorem length_sampleSteps_natCast (a b : ℕ) :
    (sampleSteps (a : ℚ) (b : ℚ)).length = b - a := by
  unfold sampleSteps
  rw [List.length_map, List.length_range, ceil_sub_natCast]

theorem mem_sampleSteps_natCast (a b : ℕ) (x : ℚ)
    (hx : x ∈ sampleSteps (a : ℚ) (b : ℚ)) :
    ∃ k : ℕ, k < b - a ∧ x = ((a + k : ℕ) : ℚ) := by
  unfold sampleSteps at hx
  rw [List.mem_map] at hx
  obtain ⟨k, hk, rfl⟩ := hx
  rw [List.mem_range, ceil_sub_natCast] at hk
  refine ⟨k, hk, ?_⟩
  push_cast
  ring

theorem pixAt_natCast (img : Image) (a b : ℕ) (ha : a < img.width)
    (hb : b < img.height) :
    pixAt img (a : ℚ) (b : ℚ) = some (img.pix a b) := by
  unfold pixAt
  rw [if_pos]
  · simp
  · refine ⟨Rat.den_natCast a, Rat.den_natCast b, by positivity,
      by exact_mod_cast ha, by positivity, by exact_mod_cast hb⟩

theorem foldl_pixelStep_const (img : Image) (c : ℕ × ℕ × ℕ) :
    ∀ (pts : List (ℚ × ℚ)) (t : ℚ × ℚ × ℚ),
      (∀ p ∈ pts, pixAt img p.1 p.2 = some c) →
      pts.foldl (pixelStep img) (some t) =
        some (t.1 + pts.length * c.1, t.2.1 + pts.length * c.2.1,
          t.2.2 + pts.length * c.2.2) := by
  intro pts
  induction pts with
  | nil =>
    intro t _
    simp
  | cons p rest ih =>
    intro t h
    rw [List.foldl_cons,
      show pixelStep img (some t) p =
          some (t.1 + c.1, t.2.1 + c.2.1, t.2.2 + c.2.2) from by
        unfold pixelStep
        rw [h p (List.mem_cons_self _ _)],
      ih _ fun q hq => h q (List.mem_cons_of_mem _ hq)]
    simp only [List.length_cons, Option.some.injEq, Prod.mk.injEq]
    refine ⟨?_, ?_, ?_⟩ <;> push_cast <;> ring

theorem pixelSum_const (img : Image) (c : ℕ × ℕ × ℕ) (pts : List (ℚ × ℚ))
    (h : ∀ p ∈ pts, pixAt img p.1 p.2 = some c) :
    pixelSum img pts =
      some ((pts.length : ℚ) * c.1, (pts.length : ℚ) * c.2.1,
        (pts.length : ℚ) * c.2.2) := by
  unfold pixelSum
  rw [foldl_pixelStep_const img c pts (0, 0, 0) h]
  norm_num

theorem length_flatMap_const {α β γ : Type} (l : List α) (l2 : List β)
    (f : α → β → γ) :
    (l.flatMap fun y => l2.map (f y)).length = l.length * l2.length := by
  induction l with
  | nil => simp
  | cons a rest ih =>
    simp only [List.flatMap_cons, List.length_append, List.length_map, ih,
      List.length_cons]
    ring

/-- On a uniform image, one grid cell at integer coordinates with integer
cell size averages to exactly the uniform colour, covering the clipped
cell. -/
theorem findRegion_uniform (img : Image) (c : ℕ × ℕ × ℕ)
    (hpix : ∀ a b, a < img.width → b < img.height → img.pix a b = c)
    (sx sy g : ℕ) (hg : 0 < g) (hsx : sx < img.width)
    (hsy : sy < img.height) :
    findRegion img (sx : ℚ) (sy : ℚ) (g : ℚ) =
      some { x := (sx : ℚ), y := (sy : ℚ)
             width := ((min (sx + g) img.width : ℕ) : ℚ) - (sx : ℚ)
             height := ((min (sy + g) img.height : ℕ) : ℚ) - (sy : ℚ)
             color := uniColor c
             pixelCount := (min (sy + g) img.height - sy) *
               (min (sx + g) img.width - sx) } := by
  have hendX : min ((sx : ℚ) + (g : ℚ)) (img.width : ℚ) =
      ((min (sx + g) img.width : ℕ) : ℚ) := by
    push_cast
    rfl
  have hendY : min ((sy : ℚ) + (g : ℚ)) (img.height : ℚ) =
      ((min (sy + g) img.height : ℕ) : ℚ) := by
    push_cast
    rfl
  have hnx : 1 ≤ min (sx + g) img.width - sx := by omega
  have hny : 1 ≤ min (sy + g) img.height - sy := by omega
  simp only [findRegion]
  rw [hendX, hendY]
  have hmem : ∀ p ∈ (sampleSteps (sy : ℚ) ((min (sy + g) img.height : ℕ) : ℚ)).flatMap
      fun yy => (sampleSteps (sx : ℚ) ((min (sx + g) img.width : ℕ) : ℚ)).map
        fun xx => (xx, yy),
      pixAt img p.1 p.2 = some c := by
    intro p hp
    rw [List.mem_flatMap] at hp
    obtain ⟨yy, hyy, hp⟩ := hp
    rw [List.mem_map] at hp
    obtain ⟨xx, hxx, rfl⟩ := hp
    obtain ⟨ky, hky, rfl⟩ := mem_sampleSteps_natCast _ _ _ hyy
    obtain ⟨kx, hkx, rfl⟩ := mem_sampleSteps_natCast _ _ _ hxx
    have hx2 : sx + kx < img.width := by omega
    have hy2 : sy + ky < img.height := by omega
    rw [pixAt_natCast img _ _ hx2 hy2, hpix _ _ hx2 hy2]
  have hlen : ((sampleSteps (sy : ℚ) ((min (sy + g) img.height : ℕ) : ℚ)).flatMap
      fun yy => (sampleSteps (sx : ℚ) ((min (sx + g) img.width : ℕ) : ℚ)).map
        fun xx => (xx, yy)).length =
      (min (sy + g) img.height - sy) * (min (sx + g) img.width - sx) := by
    rw [length_flatMap_const, length_sampleSteps_natCast,
      length_sampleSteps_natCast]
  rw [pixelSum_const img c _ hmem, hlen]
  have hcount : ((min (sy + g) img.height - sy) *
      (min (sx + g) img.width - sx) : ℕ) ≠ 0 := by
    intro hzero
    rw [Nat.mul_eq_zero] at hzero
    omega
  rw [if_neg hcount]
  have hchan : ∀ v : ℕ,
      ((((min (sy + g) img.height - sy) * (min (sx + g) img.width - sx) :
        ℕ) : ℚ) * v) /
        (((min (sy + g) img.height - sy) * (min (sx + g) img.width - sx) :
          ℕ) : ℚ) / 255 = (v : ℚ) / 255 := by
    intro v
    rw [mul_comm, mul_div_assoc, div_self (by exact_mod_cast hcount), mul_one]
  simp only [Option.some.injEq]
  congr 1
  unfold uniColor
  congr 1 <;> rw [hchan]

/-- An image whose pixels all have the single colour `c`. -/
def uniformImage (w h : ℕ) (c : ℕ × ℕ × ℕ) : Image :=
  { width := w, height := h, pix := fun _ _ => c }

/-- All-zero colour record (what a uniform black cell averages to). -/
def blackC : ColorInfo := { r := some 0, g := some 0, b := some 0 }

/-- A full 20×20 black grid cell at the given position. -/
def cellR (x y : ℚ) : Region :=
  { x := x, y := y, width := 20, height := 20, color := blackC,
    pixelCount := 400 }

/-- The bounding box grown from three of the four cells of a uniform
40×40 image. -/
def bigR : Region :=
  { x := 0, y := 0, width := 40, height := 40, color := blackC,
    pixelCount := 1200 }

/-- The intermediate region after merging the top row of cells. -/
def topRowR : Region :=
  { x := 0, y := 0, width := 40, height := 20, color := blackC,
    pixelCount := 800 }

theorem uniform_cell_40 (sx sy : ℕ) (h1 : sx < 40) (h2 : sy < 40)
    (h3 : sx + 20 ≤ 40) (h4 : sy + 20 ≤ 40) :
    findRegion (uniformImage 40 40 (0, 0, 0)) (sx : ℚ) (sy : ℚ) (20 : ℚ) =
      some (cellR sx sy) := by
  have h := findRegion_uniform (uniformImage 40 40 (0, 0, 0)) (0, 0, 0)
    (fun _ _ _ _ => rfl) sx sy 20 (by norm_num) h1 h2
  rw [show ((20 : ℕ) : ℚ) = (20 : ℚ) from by norm_num] at h
  rw [h]
  have hx : min (sx + 20) (uniformImage 40 40 (0, 0, 0)).width = sx + 20 := by
    simp only [uniformImage]
    omega
  have hy : min (sy + 20) (uniformImage 40 40 (0, 0, 0)).height = sy + 20 := by
    simp only [uniformImage]
    omega
  have hw : ((min (sx + 20) (uniformImage 40 40 (0, 0, 0)).width : ℕ) : ℚ) -
      (sx : ℚ) = 20 := by
    rw [hx]
    push_cast
    ring
  have hh : ((min (sy + 20) (uniformImage 40 40 (0, 0, 0)).height : ℕ) : ℚ) -
      (sy : ℚ) = 20 := by
    rw [hy]
    push_cast
    ring
  have hc : (min (sy + 20) (uniformImage 40 40 (0, 0, 0)).height - sy) *
      (min (sx + 20) (uniformImage 40 40 (0, 0, 0)).width - sx) = 400 := by
    rw [hx, hy]
    have e1 : sy + 20 - sy = 20 := by omega
    have e2 : sx + 20 - sx = 20 := by omega
    rw [e1, e2]
  have hcol : uniColor (0, 0, 0) = blackC := by
    simp only [uniColor, blackC]
    norm_num
  rw [hw, hh, hc, hcol]
  rfl

/-- A horizontally chained sequence of same-colour, full-height row regions:
each region starts where the previous one ended; `start` is the left edge
of the first region, `stop` the right edge of the last. -/
def IsRowChainEnd (col : ColorInfo) (hh : ℚ) : ℚ → ℚ → List Region → Prop
  | start, stop, [] => start = stop
  | start, stop, r :: rest =>
    r.x = start ∧ r.y = 0 ∧ r.height = hh ∧ 0 < r.width ∧ r.color = col ∧
      1 ≤ r.pixelCount ∧ IsRowChainEnd col hh (r.x + r.width) stop rest

theorem isRowChainEnd_append (col : ColorInfo) (hh : ℚ) :
    ∀ (rs : List Region) (start stop : ℚ) (r : Region),
      IsRowChainEnd col hh start stop rs →
      r.x = stop → r.y = 0 → r.height = hh → 0 < r.width → r.color = col →
      1 ≤ r.pixelCount →
      IsRowChainEnd col hh start (r.x + r.width) (rs ++ [r]) := by
  intro rs
  induction rs with
  | nil =>
    intro start stop r hch hx hy hht hw hc hp
    exact ⟨hx.trans hch.symm, hy, hht, hw, hc, hp, rfl⟩
  | cons q rest ih =>
    intro start stop r hch hx hy hht hw hc hp
    obtain ⟨h1, h2, h3, h4, h5, h6, h7⟩ := hch
    exact ⟨h1, h2, h3, h4, h5, h6, ih _ _ r h7 hx hy hht hw hc hp⟩

theorem wavgChannel_same (v : ℚ) (n1 n2 : ℕ) (h : 1 ≤ n1) :
    wavgChannel (some v) n1 (some v) n2 = some v := by
  unfold wavgChannel
  have hpos : (0 : ℚ) < (n1 : ℚ) + (n2 : ℚ) := by
    have h1 : (1 : ℚ) ≤ (n1 : ℚ) := by exact_mod_cast h
    have h2 : (0 : ℚ) ≤ (n2 : ℚ) := by positivity
    linarith
  have hne : ((n1 : ℚ) + (n2 : ℚ)) ≠ 0 := ne_of_gt hpos
  simp only [Option.some.injEq]
  rw [div_eq_iff hne]
  ring

theorem colorDiffOf_uniColor_self (c : ℕ × ℕ × ℕ) :
    colorDiffOf (uniColor c) (uniColor c) = some 0 := by
  simp only [colorDiffOf, uniColor, sub_self]
  rw [show jsAbs (0 : ℚ) = 0 from by norm_num [jsAbs]]
  norm_num

/-- Two same-colour row regions merge when the second starts exactly at
the first one's right edge. -/
theorem shouldMerge_row (cfg : LocalProcessorConfig)
    (hth : 0 ≤ cfg.colorThreshold) (c : ℕ × ℕ × ℕ) (hh : ℚ) (hhpos : 0 < hh)
    (cur r : Region) (hcol : cur.color = uniColor c)
    (hrcol : r.color = uniColor c) (hx : r.x = cur.x + cur.width)
    (hy : cur.y = 0) (hry : r.y = 0) (hht : cur.height = hh)
    (hrht : r.height = hh) :
    shouldMerge cfg cur r = true := by
  have hnotgt : ¬((0 : ℚ) > cfg.colorThreshold * 3) := by
    rw [not_lt]
    linarith
  have hexc : exceedsThreshold (cfg.colorThreshold * 3)
      (colorDiffOf cur.color r.color) = false := by
    rw [hcol, hrcol, colorDiffOf_uniColor_self]
    unfold exceedsThreshold
    exact decide_eq_false hnotgt
  have hax : decide (jsAbs (cur.x + cur.width - r.x) ≤ (5 : ℚ)) = true := by
    rw [hx, sub_self, show jsAbs (0 : ℚ) = 0 from by norm_num [jsAbs]]
    exact decide_eq_true (by norm_num)
  have hovy : decide (cur.y < r.y + r.height ∧ cur.y + cur.height > r.y) =
      true := by
    rw [hy, hry, hrht, hht]
    exact decide_eq_true ⟨by linarith, by linarith⟩
  simp only [shouldMerge, hexc, hax, hovy, Bool.false_eq_true, if_false,
    Bool.true_or, Bool.true_and, Bool.or_eq_true]

/-- Growing a same-colour row region along a chain keeps merging: the
current bounding box stays a full-height row whose right edge is the next
region's left edge, so `absorb` consumes the whole chain. -/
theorem absorb_chain (cfg : LocalProcessorConfig)
    (hth : 0 ≤ cfg.colorThreshold) (c : ℕ × ℕ × ℕ) (hh : ℚ) (hhpos : 0 < hh) :
    ∀ (rs : List Region) (cur : Region) (stop : ℚ),
      IsRowChainEnd (uniColor c) hh (cur.x + cur.width) stop rs →
      cur.y = 0 → cur.height = hh → cur.color = uniColor c →
      1 ≤ cur.pixelCount → 0 < cur.width →
      (absorb cfg cur rs).2 = [] := by
  intro rs
  induction rs with
  | nil =>
    intro cur stop _ _ _ _ _ _
    rfl
  | cons r rest ih =>
    intro cur stop hch hy hht hcol hp hw
    obtain ⟨h1, h2, h3, h4, h5, h6, h7⟩ := hch
    have hsm : shouldMerge cfg cur r = true :=
      shouldMerge_row cfg hth c hh hhpos cur r hcol h5 (h1.trans rfl) hy h2
        hht h3
    have hxle : cur.x ≤ r.x := by
      rw [h1]
      linarith
    have hrle : cur.x + cur.width ≤ r.x + r.width := by
      rw [h1]
      linarith
    have hx2 : (mergeTwo cur r).x = cur.x := by
      simp only [mergeTwo]
      exact min_eq_left hxle
    have hright : max (cur.x + cur.width) (r.x + r.width) = r.x + r.width :=
      max_eq_right hrle
    have hcw : (mergeTwo cur r).x + (mergeTwo cur r).width =
        r.x + r.width := by
      simp only [mergeTwo, min_eq_left hxle, hright]
      ring
    have hy2 : (mergeTwo cur r).y = 0 := by
      simp only [mergeTwo, hy, h2, min_self]
    have hht2 : (mergeTwo cur r).height = hh := by
      simp only [mergeTwo, hy, h2, hht, h3, min_self, max_self]
      ring
    have hcol2 : (mergeTwo cur r).color = uniColor c := by
      simp only [mergeTwo, hcol, h5, uniColor]
      rw [wavgChannel_same _ _ _ hp, wavgChannel_same _ _ _ hp,
        wavgChannel_same _ _ _ hp]
    have hp2 : 1 ≤ (mergeTwo cur r).pixelCount := by
      simp only [mergeTwo]
      omega
    have hw2 : 0 < (mergeTwo cur r).width := by
      simp only [mergeTwo, min_eq_left hxle, hright]
      rw [h1]
      linarith
    have h72 : IsRowChainEnd (uniColor c) hh
        ((mergeTwo cur r).x + (mergeTwo cur r).width) stop rest := by
      rw [hcw]
      exact h7
    simp only [absorb, hsm, if_true]
    exact ih (mergeTwo cur r) stop h72 hy2 hht2 hcol2 hp2 hw2

/-- The merge pass collapses a nonempty row chain to a single region. -/
theorem mergeAll_chain (cfg : LocalProcessorConfig)
    (hth : 0 ≤ cfg.colorThreshold) (c : ℕ × ℕ × ℕ) (hh : ℚ) (hhpos : 0 < hh)
    (r0 : Region) (rest : List Region) (start stop : ℚ)
    (hch : IsRowChainEnd (uniColor c) hh start stop (r0 :: rest)) :
    mergeAll cfg (r0 :: rest) = [(absorb cfg r0 rest).1] := by
  obtain ⟨_, h2, h3, h4, h5, h6, h7⟩ := hch
  rw [mergeAll]
  rw [absorb_chain cfg hth c hh hhpos rest r0 stop h7 h2 h3 h5 h6 h4]
  rw [mergeAll]

theorem lt_cells_iff (w j : ℕ) :
    j < Int.toNat ⌈(w : ℚ) / 20⌉ ↔ j * 20 < w := by
  rw [Int.lt_toNat, Int.lt_ceil, lt_div_iff (by norm_num : (0 : ℚ) < 20)]
  constructor
  · intro hlt
    exact_mod_cast hlt
  · intro hlt
    exact_mod_cast hlt

theorem cellKey_row (j : ℕ) : cellKey ((j : ℚ) * 20) 0 20 = ((j : ℤ), 0) := by
  unfold cellKey
  rw [mul_div_cancel_right₀ _ (by norm_num : (20 : ℚ) ≠ 0), zero_div]
  rw [Int.floor_natCast, Int.floor_zero]

/-- The region a single-row grid cell produces on a uniform image. -/
def rowCellRegion (img : Image) (c : ℕ × ℕ × ℕ) (j : ℕ) : Region :=
  { x := (j : ℚ) * 20, y := 0
    width := ((min (j * 20 + 20) img.width : ℕ) : ℚ) - (j : ℚ) * 20
    height := (img.height : ℚ)
    color := uniColor c
    pixelCount := img.height * (min (j * 20 + 20) img.width - j * 20) }

theorem row_cell_spec (img : Image) (c : ℕ × ℕ × ℕ)
    (hpix : ∀ a b, a < img.width → b < img.height → img.pix a b = c)
    (hh1 : 1 ≤ img.height) (hh2 : img.height ≤ 20)
    (j : ℕ) (hj : j * 20 < img.width) :
    findRegion img ((j : ℚ) * 20) 0 20 = some (rowCellRegion img c j) := by
  have h := findRegion_uniform img c hpix (j * 20) 0 20 (by norm_num) hj
    (by omega)
  rw [show ((j * 20 : ℕ) : ℚ) = (j : ℚ) * 20 from by push_cast; ring,
    show ((0 : ℕ) : ℚ) = 0 from by norm_num,
    show ((20 : ℕ) : ℚ) = 20 from by norm_num] at h
  rw [h]
  have hmin : min (0 + 20) img.height = img.height := by omega
  unfold rowCellRegion
  rw [hmin]
  norm_num

/-- On a uniform single-row image the scan appends one full-height region
per cell, maintaining a row chain; the output is a chain, nonempty as soon
as anything was scanned or carried in. -/
theorem scanCells_row (img : Image) (cfg : LocalProcessorConfig)
    (c : ℕ × ℕ × ℕ)
    (hpix : ∀ a b, a < img.width → b < img.height → img.pix a b = c)
    (hh1 : 1 ≤ img.height) (hh2 : img.height ≤ 20)
    (hmr : cfg.minRegionSize ≤ (img.height : ℚ)) :
    ∀ (len j : ℕ) (visited : List (ℤ × ℤ)) (regions : List Region)
      (start stop : ℚ),
      j + len = Int.toNat ⌈(img.width : ℚ) / 20⌉ →
      (∀ k : ℕ, j ≤ k → ((k : ℤ), (0 : ℤ)) ∉ visited) →
      IsRowChainEnd (uniColor c) (img.height : ℚ) start stop regions →
      (1 ≤ len → stop = (j : ℚ) * 20) →
      ∃ start2 stop2,
        IsRowChainEnd (uniColor c) (img.height : ℚ) start2 stop2
          (scanCells img cfg 20 ((List.range' j len).map fun k : ℕ =>
            ((k : ℚ) * 20, (0 : ℚ))) visited regions) ∧
        (scanCells img cfg 20 ((List.range' j len).map fun k : ℕ =>
            ((k : ℚ) * 20, (0 : ℚ))) visited regions = [] →
          regions = [] ∧ len = 0) := by
  intro len
  induction len with
  | zero =>
    intro j visited regions start stop hn hvis hch hedge
    exact ⟨start, stop, hch, fun h => ⟨h, rfl⟩⟩
  | succ len ih =>
    intro j visited regions start stop hn hvis hch hedge
    have hj : j * 20 < img.width := by
      rw [← lt_cells_iff img.width j, ← hn]
      omega
    have hfr := row_cell_spec img c hpix hh1 hh2 j hj
    have hnx : 1 ≤ min (j * 20 + 20) img.width - j * 20 := by omega
    have hkeep : cfg.minRegionSize ≤
        ((rowCellRegion img c j).pixelCount : ℚ) := by
      refine le_trans hmr ?_
      have hle : img.height ≤ (rowCellRegion img c j).pixelCount := by
        unfold rowCellRegion
        calc img.height = img.height * 1 := by omega
        _ ≤ img.height * (min (j * 20 + 20) img.width - j * 20) :=
          Nat.mul_le_mul_left _ hnx
      exact_mod_cast hle
    have hxj : (rowCellRegion img c j).x = stop := by
      rw [hedge (by omega)]
      rfl
    have hwpos : 0 < (rowCellRegion img c j).width := by
      unfold rowCellRegion
      have hlt : j * 20 < min (j * 20 + 20) img.width := by omega
      have : ((j * 20 : ℕ) : ℚ) < ((min (j * 20 + 20) img.width : ℕ) : ℚ) := by
        exact_mod_cast hlt
      push_cast at this ⊢
      linarith
    have hppos : 1 ≤ (rowCellRegion img c j).pixelCount := by
      unfold rowCellRegion
      calc 1 = 1 * 1 := rfl
      _ ≤ img.height * (min (j * 20 + 20) img.width - j * 20) :=
        Nat.mul_le_mul hh1 hnx
    have hch2 := isRowChainEnd_append (uniColor c) (img.height : ℚ) regions
      start stop (rowCellRegion img c j) hch hxj rfl rfl hwpos rfl hppos
    have hnotmem : ((j : ℤ), (0 : ℤ)) ∉ visited := hvis j le_rfl
    have hstep : scanCells img cfg 20 ((List.range' j (len + 1)).map fun k : ℕ =>
        ((k : ℚ) * 20, (0 : ℚ))) visited regions =
        if cfg.maxRegions ≤ (regions ++ [rowCellRegion img c j]).length then
          regions ++ [rowCellRegion img c j]
        else scanCells img cfg 20 ((List.range' (j + 1) len).map fun k : ℕ =>
          ((k : ℚ) * 20, (0 : ℚ))) (((j : ℤ), (0 : ℤ)) :: visited)
          (regions ++ [rowCellRegion img c j]) := by
      rw [List.range'_succ, List.map_cons]
      simp only [scanCells, cellKey_row, hfr]
      rw [if_neg hnotmem, if_pos hkeep]
    rw [hstep]
    by_cases hmax : cfg.maxRegions ≤ (regions ++ [rowCellRegion img c j]).length
    · rw [if_pos hmax]
      exact ⟨start, _, hch2, fun h => absurd h (by simp)⟩
    · rw [if_neg hmax]
      have hvis2 : ∀ k : ℕ, j + 1 ≤ k →
          ((k : ℤ), (0 : ℤ)) ∉ (((j : ℤ), (0 : ℤ)) :: visited) := by
        intro k hk
        rw [List.mem_cons]
        rintro (hkk | hkk)
        · have : (k : ℤ) = (j : ℤ) := (Prod.mk.injEq _ _ _ _ ▸ hkk).1
          omega
        · exact hvis k (by omega) hkk
      have hedge2 : 1 ≤ len →
          (rowCellRegion img c j).x + (rowCellRegion img c j).width =
            ((j + 1 : ℕ) : ℚ) * 20 := by
        intro hlen
        have hj2 : (j + 1) * 20 < img.width := by
          rw [← lt_cells_iff img.width (j + 1), ← hn]
          omega
        have hminw : min (j * 20 + 20) img.width = j * 20 + 20 := by omega
        unfold rowCellRegion
        rw [hminw]
        push_cast
        ring
      obtain ⟨s2, t2, hchain2, hres2⟩ := ih (j + 1)
        (((j : ℤ), (0 : ℤ)) :: visited) (regions ++ [rowCellRegion img c j])
        start ((rowCellRegion img c j).x + (rowCellRegion img c j).width)
        (by omega) hvis2 hch2 hedge2
      exact ⟨s2, t2, hchain2, fun h => absurd (hres2 h).1 (by simp)⟩

/-- A plain rectangle element at the given geometry, as produced by the
segmenter/adapter before the layout pass. -/
def mkRect (x y w h : ℚ) : RecognizedElement :=
  { type := .rectangle, x := x, y := y, width := w, height := h }

/-- C1: for every element and container axis the inferred constraint follows
the spec's rule order with its exact thresholds (d1 = near-edge distance,
d2 = far-edge distance, threshold = containerSize·0.1; stretch if size >
80% of container, else center if |d1−d2| < threshold, else min if d1<d2 and
d1<threshold, else max if d2<d1 and d2<threshold, else scale); in a 400-wide
container an element at x=0 of width 100 gets horizontal `min`, one at
x=300 of width 100 gets `max`, and a 350×50 element gets `stretch`. -/
theorem constraint_rule_follows_spec :
    (∀ (e : RecognizedElement) (w : ℚ),
      inferHorizontalConstraint e w =
        specConstraintRule e.x (w - (e.x + e.width)) e.width w) ∧
    (∀ (e : RecognizedElement) (h : ℚ),
      inferVerticalConstraint e h =
        specConstraintRule e.y (h - (e.y + e.height)) e.height h) ∧
    inferHorizontalConstraint (mkRect 0 0 100 100) 400 = .min ∧
    inferHorizontalConstraint (mkRect 300 0 100 100) 400 = .max ∧
    inferHorizontalConstraint (mkRect 25 0 350 50) 400 = .stretch := by
  refine ⟨fun e w => rfl, fun e h => rfl, ?_, ?_, ?_⟩ <;>
    norm_num [inferHorizontalConstraint, mkRect, jsAbs]

/-- C6 counterexample: with the default threshold 5, three elements with
left edges 0, 4 and 8 all land in one left-aligned group, although the
outer two differ by 8 > 5 — single-linkage chaining defeats the claimed
separation. -/
theorem alignment_left_grouping_counterexample :
    (∃ g, g ∈ (detectAlignment {} [mkRect 0 0 10 10, mkRect 4 0 10 10,
        mkRect 8 0 10 10]).leftAligned ∧ 0 ∈ g ∧ 2 ∈ g) ∧
    ({} : LayoutAnalyzerConfig).alignmentThreshold <
      jsAbs ((mkRect 0 0 10 10).x - (mkRect 8 0 10 10).x) := by
  constructor
  · refine ⟨[0, 1, 2], ?_, by norm_num, by norm_num⟩
    norm_num [detectAlignment, calculateBounds, mkRect, groupByValue,
      groupStart, groupScan, List.insertionSort, List.orderedInsert,
      List.enum, List.enumFrom]
  · norm_num [mkRect, jsAbs]

/-- C6 (amended): in alignment detection, two elements whose left edges
differ by at most the (nonnegative) alignment threshold always share a
left-aligned group; two elements whose left edges differ by more than the
threshold are in different groups provided no third element lies strictly
between them — with intermediate elements, single-linkage chaining can
still join them (see the counterexample). -/
theorem alignment_left_grouping (cfg : LayoutAnalyzerConfig)
    (elements : List RecognizedElement) (a b : ElementBounds)
    (hth : 0 ≤ cfg.alignmentThreshold)
    (ha : a ∈ calculateBounds elements) (hb : b ∈ calculateBounds elements)
    (hne : a.index ≠ b.index) :
    (jsAbs (a.left - b.left) ≤ cfg.alignmentThreshold →
      ∃ g, g ∈ (detectAlignment cfg elements).leftAligned ∧
        a.index ∈ g ∧ b.index ∈ g) ∧
    (cfg.alignmentThreshold < jsAbs (a.left - b.left) →
      (∀ c ∈ calculateBounds elements,
        c.left ≤ min a.left b.left ∨ max a.left b.left ≤ c.left) →
      ∀ g ∈ (detectAlignment cfg elements).leftAligned,
        ¬(a.index ∈ g ∧ b.index ∈ g)) := by
  have hne2 : a ≠ b := fun h => hne (congrArg ElementBounds.index h)
  constructor
  · intro hclose
    exact groupByValue_close_pair (calculateBounds elements)
      (fun c => c.left) cfg.alignmentThreshold a b ha hb hne2 hclose
  · intro hfar hmid
    exact groupByValue_separated (calculateBounds elements)
      (fun c => c.left) cfg.alignmentThreshold hth a b ha hb
      (calculateBounds_index_nodup elements) hfar hmid

/-- Witness for the amended C6 theorem at concrete inputs: lefts 0 and 3
(within threshold 5) share a group; isolated lefts 0 and 100 (beyond the
threshold, nothing in between) never share a group. -/
theorem alignment_left_grouping_witness :
    (∃ g, g ∈ (detectAlignment {} [mkRect 0 0 10 10,
        mkRect 3 0 10 10]).leftAligned ∧ 0 ∈ g ∧ 1 ∈ g) ∧
    (∀ g ∈ (detectAlignment {} [mkRect 0 0 10 10,
        mkRect 100 0 10 10]).leftAligned, ¬(0 ∈ g ∧ 1 ∈ g)) := by
  constructor
  · have h := (alignment_left_grouping {} [mkRect 0 0 10 10, mkRect 3 0 10 10]
      { index := 0, left := 0, top := 0, right := 10, bottom := 10,
        centerX := 5, centerY := 5 }
      { index := 1, left := 3, top := 0, right := 13, bottom := 10,
        centerX := 8, centerY := 5 }
      (by norm_num)
      (by norm_num [calculateBounds, mkRect, List.enum, List.enumFrom])
      (by norm_num [calculateBounds, mkRect, List.enum, List.enumFrom])
      (by norm_num)).1 (by norm_num [jsAbs])
    simpa using h
  · have h := (alignment_left_grouping {} [mkRect 0 0 10 10, mkRect 100 0 10 10]
      { index := 0, left := 0, top := 0, right := 10, bottom := 10,
        centerX := 5, centerY := 5 }
      { index := 1, left := 100, top := 0, right := 110, bottom := 10,
        centerX := 105, centerY := 5 }
      (by norm_num)
      (by norm_num [calculateBounds, mkRect, List.enum, List.enumFrom])
      (by norm_num [calculateBounds, mkRect, List.enum, List.enumFrom])
      (by norm_num)).2 (by norm_num [jsAbs]) ?_
    · simpa using h
    · intro c hc
      simp only [calculateBounds, mkRect, List.enum, List.enumFrom, List.map,
        List.mem_cons, List.mem_singleton, List.not_mem_nil, or_false] at hc
      rcases hc with rfl | rfl <;> norm_num

/-- C7 counterexample: a uniform 40×40 black image spans a 2×2 cell grid;
the single merge pass absorbs the right and lower-left cells into the
first, but the diagonal lower-right cell is neither x- nor y-adjacent to
the grown bounding box, so segmentation yields 2 regions/elements, not 1
(default config). -/
theorem segmentation_uniform_counterexample :
    (convertRegionsToElements
      (detectRegions (uniformImage 40 40 (0, 0, 0)) {})).length = 2 := by
  have h00 := uniform_cell_40 0 0 (by norm_num) (by norm_num) (by norm_num)
    (by norm_num)
  have h10 := uniform_cell_40 20 0 (by norm_num) (by norm_num) (by norm_num)
    (by norm_num)
  have h01 := uniform_cell_40 0 20 (by norm_num) (by norm_num) (by norm_num)
    (by norm_num)
  have h11 := uniform_cell_40 20 20 (by norm_num) (by norm_num) (by norm_num)
    (by norm_num)
  push_cast at h00 h10 h01 h11
  have hg : gridSizeOf (uniformImage 40 40 (0, 0, 0)).width
      (uniformImage 40 40 (0, 0, 0)).height = 20 := by
    simp only [uniformImage, gridSizeOf]
    norm_num
  have hpos : gridPositions 40 20 = [0, 20] := by
    unfold gridPositions
    rw [show ⌈(40 : ℚ) / 20⌉ = 2 from by norm_num]
    rw [show Int.toNat 2 = 2 from rfl]
    rw [show List.range 2 = [0, 1] from rfl]
    norm_num
  have hsm1 : shouldMerge {} (cellR 0 0) (cellR 20 0) = true := by
    norm_num [shouldMerge, cellR, blackC, jsAbs, colorDiffOf, exceedsThreshold]
  have hmt1 : mergeTwo (cellR 0 0) (cellR 20 0) = topRowR := by
    simp only [mergeTwo, cellR, blackC, topRowR, wavgChannel, Region.mk.injEq,
      ColorInfo.mk.injEq]
    norm_num
  have hsm2 : shouldMerge {} topRowR (cellR 0 20) = true := by
    norm_num [shouldMerge, topRowR, cellR, blackC, jsAbs, colorDiffOf, exceedsThreshold]
  have hmt2 : mergeTwo topRowR (cellR 0 20) = bigR := by
    simp only [mergeTwo, topRowR, cellR, blackC, bigR, wavgChannel,
      Region.mk.injEq, ColorInfo.mk.injEq]
    norm_num
  have hsm3 : shouldMerge {} bigR (cellR 20 20) = false := by
    norm_num [shouldMerge, bigR, cellR, blackC, jsAbs, colorDiffOf, exceedsThreshold]
  have habs : absorb {} (cellR 0 0) [cellR 20 0, cellR 0 20, cellR 20 20] =
      (bigR, [cellR 20 20]) := by
    simp only [absorb, hsm1, hmt1, hsm2, hmt2, hsm3, if_true,
      Bool.false_eq_true, if_false]
  have hscan : scanCells (uniformImage 40 40 (0, 0, 0)) {} 20
      [((0 : ℚ), (0 : ℚ)), (20, 0), (0, 20), (20, 20)] [] [] =
      [cellR 0 0, cellR 20 0, cellR 0 20, cellR 20 20] := by
    simp only [scanCells, cellKey, h00, h10, h01, h11]
    norm_num [cellR]
    exact ⟨by decide, by decide⟩
  have hcells : ((gridPositions (uniformImage 40 40 (0, 0, 0)).height 20).flatMap
      fun y => (gridPositions (uniformImage 40 40 (0, 0, 0)).width 20).map
        fun x => (x, y)) =
      [((0 : ℚ), (0 : ℚ)), (20, 0), (0, 20), (20, 20)] := by
    show ((gridPositions 40 20).flatMap
      fun y => (gridPositions 40 20).map fun x => (x, y)) = _
    rw [hpos]
    rfl
  have hmerge : mergeRegions {} [cellR 0 0, cellR 20 0, cellR 0 20,
      cellR 20 20] = [bigR, cellR 20 20] := by
    rw [mergeRegions, if_neg (by norm_num)]
    rw [mergeAll, habs]
    rw [mergeAll]
    rw [show absorb {} (cellR 20 20) [] = (cellR 20 20, []) from rfl]
    rw [mergeAll]
  simp only [detectRegions]
  rw [hg, hcells, hscan, hmerge]
  rfl

theorem gridSizeOf_small (w h : ℕ) (hwh : min w h ≤ 400) :
    gridSizeOf w h = 20 := by
  unfold gridSizeOf
  rw [max_eq_left]
  rw [div_le_iff (by norm_num : (0 : ℚ) < 20)]
  calc ((min w h : ℕ) : ℚ) ≤ 400 := by exact_mod_cast hwh
  _ = 20 * 20 := by norm_num

theorem gridPositions_one (h : ℕ) (hh1 : 1 ≤ h) (hh2 : h ≤ 20) :
    gridPositions (h : ℚ) 20 = [0] := by
  have hq1 : (1 : ℚ) ≤ (h : ℚ) := by exact_mod_cast hh1
  have hq2 : (h : ℚ) ≤ 20 := by exact_mod_cast hh2
  have hceil : ⌈(h : ℚ) / 20⌉ = 1 := by
    rw [Int.ceil_eq_iff]
    constructor
    · push_cast
      linarith
    · push_cast
      linarith
  unfold gridPositions
  rw [hceil, show Int.toNat 1 = 1 from rfl,
    show List.range 1 = [0] from rfl]
  norm_num

/-- C7 (amended): on a uniform image at most one grid cell tall (height at
most 20 and at least the minimum region size), every scanned cell region
merges into its left neighbour, so the local segmenter returns exactly one
rectangle element; on taller uniform images the single merge pass can
leave diagonal cells unmerged. -/
theorem segmentation_uniform_single_row (img : Image)
    (cfg : LocalProcessorConfig) (c : ℕ × ℕ × ℕ)
    (hpix : ∀ a b, a < img.width → b < img.height → img.pix a b = c)
    (hw : 1 ≤ img.width) (hh1 : 1 ≤ img.height) (hh2 : img.height ≤ 20)
    (hmr : cfg.minRegionSize ≤ (img.height : ℚ))
    (hth : 0 ≤ cfg.colorThreshold) :
    (convertRegionsToElements (detectRegions img cfg)).length = 1 := by
  have hg : gridSizeOf img.width img.height = 20 :=
    gridSizeOf_small _ _ (le_trans (min_le_right _ _) (by omega))
  have hrow : gridPositions (img.height : ℚ) 20 = [0] :=
    gridPositions_one _ hh1 hh2
  have hn1 : 1 ≤ Int.toNat ⌈(img.width : ℚ) / 20⌉ := by
    have := (lt_cells_iff img.width 0).mpr (by omega)
    omega
  have hcells : ((gridPositions (img.height : ℚ) 20).flatMap fun y =>
      (gridPositions (img.width : ℚ) 20).map fun x => (x, y)) =
      (List.range' 0 (Int.toNat ⌈(img.width : ℚ) / 20⌉)).map
        fun k : ℕ => ((k : ℚ) * 20, (0 : ℚ)) := by
    rw [hrow]
    simp only [List.flatMap_cons, List.flatMap_nil, List.append_nil]
    unfold gridPositions
    rw [List.range_eq_range', List.map_map]
    rfl
  obtain ⟨s2, t2, hchain, hres⟩ := scanCells_row img cfg c hpix hh1 hh2 hmr
    (Int.toNat ⌈(img.width : ℚ) / 20⌉) 0 [] [] 0 0 (by omega)
    (fun k _ => List.not_mem_nil _) rfl (fun _ => by norm_num)
  set R := scanCells img cfg 20
    ((List.range' 0 (Int.toNat ⌈(img.width : ℚ) / 20⌉)).map
      fun k : ℕ => ((k : ℚ) * 20, (0 : ℚ))) [] [] with hRdef
  have hRne : R ≠ [] := by
    intro hemp
    have := (hres hemp).2
    omega
  obtain ⟨r0, rest, hR⟩ := List.exists_cons_of_ne_nil hRne
  rw [hR] at hchain
  have hdet : detectRegions img cfg = mergeRegions cfg (r0 :: rest) := by
    simp only [detectRegions]
    rw [hg, hcells, ← hRdef, hR]
  have hhq : (0 : ℚ) < (img.height : ℚ) := by
    have h0 : 0 < img.height := hh1
    exact_mod_cast h0
  rw [hdet]
  unfold mergeRegions
  by_cases hlen : (r0 :: rest).length ≤ 1
  · rw [if_pos hlen]
    simp only [convertRegionsToElements, List.length_map, List.length_cons]
    simp only [List.length_cons] at hlen
    omega
  · rw [if_neg hlen]
    rw [mergeAll_chain cfg hth c ((img.height : ℚ)) hhq r0 rest s2 t2 hchain]
    rfl

/-! ### Colour-range invariants (C9) -/

/-- A defined colour channel lies in the normalized range; `NaN` (`none`)
channels are outside the scope of the range predicate. -/
def channelIn01 (o : Option ℚ) : Bool :=
  match o with
  | some q => decide (0 ≤ q ∧ q ≤ 1)
  | none => true

/-- All three channels of a colour are defined-in-range. -/
def colorIn01 (c : ColorInfo) : Bool :=
  channelIn01 c.r && channelIn01 c.g && channelIn01 c.b

theorem pixelStep_none (img : Image) (p : ℚ × ℚ) :
    pixelStep img none p = none := by
  unfold pixelStep
  cases pixAt img p.1 p.2 <;> rfl

theorem foldl_pixelStep_none (img : Image) :
    ∀ pts : List (ℚ × ℚ), pts.foldl (pixelStep img) none = none := by
  intro pts
  induction pts with
  | nil => rfl
  | cons p rest ih =>
    rw [List.foldl_cons, pixelStep_none]
    exact ih

theorem foldl_pixelStep_bound (img : Image)
    (hbyte : ∀ a b, (img.pix a b).1 ≤ 255 ∧ (img.pix a b).2.1 ≤ 255 ∧
      (img.pix a b).2.2 ≤ 255) :
    ∀ (pts : List (ℚ × ℚ)) (t0 t : ℚ × ℚ × ℚ),
      pts.foldl (pixelStep img) (some t0) = some t →
      (t0.1 ≤ t.1 ∧ t.1 ≤ t0.1 + 255 * (pts.length : ℚ)) ∧
      (t0.2.1 ≤ t.2.1 ∧ t.2.1 ≤ t0.2.1 + 255 * (pts.length : ℚ)) ∧
      (t0.2.2 ≤ t.2.2 ∧ t.2.2 ≤ t0.2.2 + 255 * (pts.length : ℚ)) := by
  intro pts
  induction pts with
  | nil =>
    intro t0 t h
    simp only [List.foldl_nil, Option.some.injEq] at h
    subst h
    norm_num
  | cons p rest ih =>
    intro t0 t h
    rw [List.foldl_cons] at h
    cases hp : pixAt img p.1 p.2 with
    | none =>
      rw [show pixelStep img (some t0) p = none from by
        unfold pixelStep; rw [hp]] at h
      rw [foldl_pixelStep_none] at h
      exact absurd h (by simp)
    | some q =>
      rw [show pixelStep img (some t0) p =
          some (t0.1 + (q.1 : ℚ), t0.2.1 + (q.2.1 : ℚ), t0.2.2 + (q.2.2 : ℚ))
        from by unfold pixelStep; rw [hp]] at h
      have hb := ih _ _ h
      have hq : (q.1 : ℚ) ≤ 255 ∧ (q.2.1 : ℚ) ≤ 255 ∧ (q.2.2 : ℚ) ≤ 255 := by
        unfold pixAt at hp
        split at hp
        · have hqe := Option.some.inj hp
          subst hqe
          refine ⟨?_, ?_, ?_⟩
          · exact_mod_cast (hbyte _ _).1
          · exact_mod_cast (hbyte _ _).2.1
          · exact_mod_cast (hbyte _ _).2.2
        · exact absurd hp (by simp)
      have h1 : (0 : ℚ) ≤ (q.1 : ℚ) := Nat.cast_nonneg _
      have h2 : (0 : ℚ) ≤ (q.2.1 : ℚ) := Nat.cast_nonneg _
      have h3 : (0 : ℚ) ≤ (q.2.2 : ℚ) := Nat.cast_nonneg _
      have hlen : ((p :: rest).length : ℚ) = (rest.length : ℚ) + 1 := by
        push_cast [List.length_cons]
        ring
      rw [hlen]
      obtain ⟨⟨ha1, ha2⟩, ⟨hb1, hb2⟩, ⟨hc1, hc2⟩⟩ := hb
      norm_num at ha1 ha2 hb1 hb2 hc1 hc2
      refine ⟨⟨by linarith, by linarith [hq.1]⟩,
        ⟨by linarith, by linarith [hq.2.1]⟩,
        ⟨by linarith, by linarith [hq.2.2]⟩⟩

theorem pixelSum_bound (img : Image)
    (hbyte : ∀ a b, (img.pix a b).1 ≤ 255 ∧ (img.pix a b).2.1 ≤ 255 ∧
      (img.pix a b).2.2 ≤ 255)
    (pts : List (ℚ × ℚ)) (t : ℚ × ℚ × ℚ) (h : pixelSum img pts = some t) :
    (0 ≤ t.1 ∧ t.1 ≤ 255 * (pts.length : ℚ)) ∧
    (0 ≤ t.2.1 ∧ t.2.1 ≤ 255 * (pts.length : ℚ)) ∧
    (0 ≤ t.2.2 ∧ t.2.2 ≤ 255 * (pts.length : ℚ)) := by
  unfold pixelSum at h
  have hb := foldl_pixelStep_bound img hbyte pts (0, 0, 0) t h
  simpa using hb

theorem findRegion_colorIn01 (img : Image)
    (hbyte : ∀ a b, (img.pix a b).1 ≤ 255 ∧ (img.pix a b).2.1 ≤ 255 ∧
      (img.pix a b).2.2 ≤ 255)
    (sx sy g : ℚ) (r : Region) (h : findRegion img sx sy g = some r) :
    colorIn01 r.color = true := by
  simp only [findRegion] at h
  split at h
  · exact absurd h (by simp)
  · rename_i hcnt
    injection h with h2
    subst h2
    dsimp only
    split
    · rename_i t hsum
      have hb := pixelSum_bound img hbyte _ _ hsum
      have hlen0 : (0 : ℚ) <
          (((sampleSteps sy (min (sy + g) (img.height : ℚ))).flatMap fun yy =>
            (sampleSteps sx (min (sx + g) (img.width : ℚ))).map fun xx =>
              (xx, yy)).length : ℚ) := by
        have hpos := Nat.pos_of_ne_zero hcnt
        exact_mod_cast hpos
      simp only [colorIn01, channelIn01, Bool.and_eq_true, decide_eq_true_eq]
      obtain ⟨⟨ha1, ha2⟩, ⟨hb1, hb2⟩, ⟨hc1, hc2⟩⟩ := hb
      refine ⟨⟨⟨?_, ?_⟩, ?_, ?_⟩, ?_, ?_⟩
      · exact div_nonneg (div_nonneg ha1 hlen0.le) (by norm_num)
      · rw [div_div, div_le_one (by positivity)]
        linarith
      · exact div_nonneg (div_nonneg hb1 hlen0.le) (by norm_num)
      · rw [div_div, div_le_one (by positivity)]
        linarith
      · exact div_nonneg (div_nonneg hc1 hlen0.le) (by norm_num)
      · rw [div_div, div_le_one (by positivity)]
        linarith
    · rfl

theorem wavgChannel_in01 (ca : Option ℚ) (na : ℕ) (cb : Option ℚ) (nb : ℕ)
    (ha : channelIn01 ca = true) (hb : channelIn01 cb = true) :
    channelIn01 (wavgChannel ca na cb nb) = true := by
  cases ca with
  | none => rfl
  | some qa =>
    cases cb with
    | none => rfl
    | some qb =>
      simp only [channelIn01, wavgChannel, decide_eq_true_eq] at ha hb ⊢
      by_cases hz : (na : ℚ) + (nb : ℚ) = 0
      · rw [hz, div_zero]
        norm_num
      · have hpos : (0 : ℚ) < (na : ℚ) + (nb : ℚ) :=
          lt_of_le_of_ne (by positivity) (Ne.symm hz)
        constructor
        · exact div_nonneg (add_nonneg
            (mul_nonneg ha.1 (Nat.cast_nonneg na))
            (mul_nonneg hb.1 (Nat.cast_nonneg nb))) hpos.le
        · rw [div_le_one hpos]
          have h1 : qa * (na : ℚ) ≤ 1 * (na : ℚ) :=
            mul_le_mul_of_nonneg_right ha.2 (Nat.cast_nonneg na)
          have h2 : qb * (nb : ℚ) ≤ 1 * (nb : ℚ) :=
            mul_le_mul_of_nonneg_right hb.2 (Nat.cast_nonneg nb)
          linarith

theorem mergeTwo_colorIn01 (a b : Region) (ha : colorIn01 a.color = true)
    (hb : colorIn01 b.color = true) :
    colorIn01 (mergeTwo a b).color = true := by
  simp only [colorIn01, Bool.and_eq_true] at ha hb
  simp only [mergeTwo, colorIn01, Bool.and_eq_true]
  exact ⟨⟨wavgChannel_in01 _ _ _ _ ha.1.1 hb.1.1,
    wavgChannel_in01 _ _ _ _ ha.1.2 hb.1.2⟩,
    wavgChannel_in01 _ _ _ _ ha.2 hb.2⟩

theorem absorb_colorIn01 (cfg : LocalProcessorConfig) :
    ∀ (l : List Region) (cur : Region), colorIn01 cur.color = true →
      (∀ r ∈ l, colorIn01 r.color = true) →
      colorIn01 (absorb cfg cur l).1.color = true ∧
        ∀ r ∈ (absorb cfg cur l).2, colorIn01 r.color = true := by
  intro l
  induction l with
  | nil =>
    intro cur hc _
    exact ⟨hc, by simp [absorb]⟩
  | cons r rest ih =>
    intro cur hc hl
    by_cases hm : shouldMerge cfg cur r
    · simp only [absorb, if_pos hm]
      exact ih _ (mergeTwo_colorIn01 _ _ hc (hl r (List.mem_cons_self _ _)))
        (fun q hq => hl q (List.mem_cons_of_mem _ hq))
    · simp only [absorb, if_neg hm]
      have hrec := ih cur hc (fun q hq => hl q (List.mem_cons_of_mem _ hq))
      refine ⟨hrec.1, ?_⟩
      intro q hq
      rw [List.mem_cons] at hq
      rcases hq with rfl | hq
      · exact hl q (List.mem_cons_self _ _)
      · exact hrec.2 q hq

theorem mergeAll_colorIn01 (cfg : LocalProcessorConfig) :
    ∀ (n : ℕ) (l : List Region), l.length ≤ n →
      (∀ r ∈ l, colorIn01 r.color = true) →
      ∀ r ∈ mergeAll cfg l, colorIn01 r.color = true := by
  intro n
  induction n with
  | zero =>
    intro l hl _
    have hnil : l = [] := List.length_eq_zero.mp (Nat.le_zero.mp hl)
    subst hnil
    intro r hr
    simp [mergeAll] at hr
  | succ n ih =>
    intro l hlen hP r hr
    cases l with
    | nil => simp [mergeAll] at hr
    | cons r0 rest =>
      rw [mergeAll] at hr
      rw [List.mem_cons] at hr
      have habs := absorb_colorIn01 cfg rest r0
        (hP r0 (List.mem_cons_self _ _))
        (fun q hq => hP q (List.mem_cons_of_mem _ hq))
      rcases hr with rfl | hr
      · exact habs.1
      · refine ih _ ?_ habs.2 r hr
        refine le_trans (absorb_length_le cfg rest r0) ?_
        simp only [List.length_cons] at hlen
        omega

theorem scanCells_colorIn01 (img : Image) (cfg : LocalProcessorConfig)
    (g : ℚ)
    (hfr : ∀ x y r, findRegion img x y g = some r →
      colorIn01 r.color = true) :
    ∀ (cells : List (ℚ × ℚ)) (visited : List (ℤ × ℤ))
      (regions : List Region),
      (∀ r ∈ regions, colorIn01 r.color = true) →
      ∀ r ∈ scanCells img cfg g cells visited regions,
        colorIn01 r.color = true := by
  intro cells
  induction cells with
  | nil =>
    intro visited regions hreg r hr
    exact hreg r hr
  | cons p rest ih =>
    intro visited regions hreg r hr
    obtain ⟨x, y⟩ := p
    simp only [scanCells] at hr
    by_cases hv : cellKey x y g ∈ visited
    · rw [if_pos hv] at hr
      exact ih _ _ hreg r hr
    · rw [if_neg hv] at hr
      cases hfind : findRegion img x y g with
      | none =>
        rw [hfind] at hr
        dsimp only at hr
        by_cases hmax : cfg.maxRegions ≤ regions.length
        · rw [if_pos hmax] at hr
          exact hreg r hr
        · rw [if_neg hmax] at hr
          exact ih _ _ hreg r hr
      | some r2 =>
        rw [hfind] at hr
        dsimp only at hr
        have hr2 := hfr x y r2 hfind
        by_cases hmin : cfg.minRegionSize ≤ (r2.pixelCount : ℚ)
        · rw [if_pos hmin] at hr
          have hreg2 : ∀ q ∈ regions ++ [r2], colorIn01 q.color = true := by
            intro q hq
            rw [List.mem_append] at hq
            rcases hq with hq | hq
            · exact hreg q hq
            · rw [List.mem_singleton] at hq
              subst hq
              exact hr2
          by_cases hmax : cfg.maxRegions ≤ (regions ++ [r2]).length
          · rw [if_pos hmax] at hr
            exact hreg2 r hr
          · rw [if_neg hmax] at hr
            exact ih _ _ hreg2 r hr
        · rw [if_neg hmin] at hr
          by_cases hmax : cfg.maxRegions ≤ regions.length
          · rw [if_pos hmax] at hr
            exact hreg r hr
          · rw [if_neg hmax] at hr
            exact ih _ _ hreg r hr

theorem detectRegions_colorIn01 (img : Image) (cfg : LocalProcessorConfig)
    (hbyte : ∀ a b, (img.pix a b).1 ≤ 255 ∧ (img.pix a b).2.1 ≤ 255 ∧
      (img.pix a b).2.2 ≤ 255) :
    ∀ r ∈ detectRegions img cfg, colorIn01 r.color = true := by
  intro r hr
  simp only [detectRegions] at hr
  rw [mergeRegions] at hr
  have hscan := scanCells_colorIn01 img cfg
    (gridSizeOf img.width img.height)
    (fun x y r2 h => findRegion_colorIn01 img hbyte x y _ r2 h)
    ((gridPositions (img.height : ℚ) (gridSizeOf img.width img.height)).flatMap
      fun y => (gridPositions (img.width : ℚ)
        (gridSizeOf img.width img.height)).map fun x => (x, y))
    [] [] (by simp)
  split at hr
  · exact hscan r hr
  · exact mergeAll_colorIn01 cfg _ _ le_rfl hscan r hr

theorem bumpColorCount_keys :
    ∀ (l : List ((ℤ × ℤ × ℤ) × ℕ)) (v : ℤ × ℤ × ℤ)
      (p : (ℤ × ℤ × ℤ) × ℕ),
      p ∈ bumpColorCount l v → p.1 = v ∨ ∃ q ∈ l, p.1 = q.1 := by
  intro l
  induction l with
  | nil =>
    intro v p hp
    rw [show bumpColorCount [] v = [(v, 1)] from rfl,
      List.mem_singleton] at hp
    subst hp
    exact Or.inl rfl
  | cons kc rest ih =>
    intro v p hp
    obtain ⟨k, c⟩ := kc
    simp only [bumpColorCount] at hp
    by_cases hk : k = v
    · rw [if_pos hk] at hp
      rw [List.mem_cons] at hp
      rcases hp with rfl | hp
      · exact Or.inr ⟨(k, c), List.mem_cons_self _ _, rfl⟩
      · exact Or.inr ⟨p, List.mem_cons_of_mem _ hp, rfl⟩
    · rw [if_neg hk] at hp
      rw [List.mem_cons] at hp
      rcases hp with rfl | hp
      · exact Or.inr ⟨(k, c), List.mem_cons_self _ _, rfl⟩
      · rcases ih v p hp with h | ⟨q, hq, hpq⟩
        · exact Or.inl h
        · exact Or.inr ⟨q, List.mem_cons_of_mem _ hq, hpq⟩

theorem foldl_bumpColorCount_keys (K : ℤ × ℤ × ℤ → Prop) :
    ∀ (vs : List (ℤ × ℤ × ℤ)) (l : List ((ℤ × ℤ × ℤ) × ℕ)),
      (∀ p ∈ l, K p.1) → (∀ v ∈ vs, K v) →
      ∀ p ∈ vs.foldl bumpColorCount l, K p.1 := by
  intro vs
  induction vs with
  | nil =>
    intro l hl _ p hp
    exact hl p hp
  | cons v rest ih =>
    intro l hl hvs p hp
    rw [List.foldl_cons] at hp
    refine ih (bumpColorCount l v) ?_
      (fun u hu => hvs u (List.mem_cons_of_mem _ hu)) p hp
    intro q hq
    rcases bumpColorCount_keys l v q hq with h | ⟨u, hu, hqu⟩
    · rw [h]
      exact hvs v (List.mem_cons_self _ _)
    · rw [hqu]
      exact hl u hu

theorem jsRound_div32_mem (v : ℕ) (hv : v ≤ 255) :
    0 ≤ jsRound ((v : ℚ) / 32) * 32 ∧ jsRound ((v : ℚ) / 32) * 32 ≤ 256 := by
  unfold jsRound
  have hvq : (v : ℚ) ≤ 255 := by exact_mod_cast hv
  have h0 : (0 : ℤ) ≤ ⌊(v : ℚ) / 32 + 1 / 2⌋ := by
    apply Int.le_floor.mpr
    push_cast
    positivity
  have h8 : ⌊(v : ℚ) / 32 + 1 / 2⌋ < 9 := by
    apply Int.floor_lt.mpr
    push_cast
    linarith
  omega

/-- C9 counterexample: for a pure-white 1×1 image the stride sampler reads
the single pixel, quantization computes `Math.round(255/32)*32 = 256`, and
the reported dominant colour has channel value 256/255, which exceeds the
normalized range bound 1 claimed by the spec. -/
theorem palette_channel_counterexample :
    ∃ c ∈ extractDominantColors
      { width := 1, height := 1, pix := fun _ _ => (255, 255, 255) },
      ∃ q : ℚ, c.r = some q ∧ 1 < q := by
  have h8 : jsRound ((255 : ℚ) / 32) = 8 := by
    unfold jsRound
    rw [show (255 : ℚ) / 32 + 1 / 2 = 271 / 32 from by norm_num]
    rw [Int.floor_eq_iff]
    norm_num
  have heval : extractDominantColors
      { width := 1, height := 1, pix := fun _ _ => (255, 255, 255) } =
      [{ r := some (256 / 255), g := some (256 / 255),
         b := some (256 / 255) }] := by
    simp only [extractDominantColors]
    norm_num [h8]
  rw [heval]
  exact ⟨_, List.mem_singleton_self _, 256 / 255, rfl, by norm_num⟩

theorem extractDominantColors_bounds (img : Image)
    (hbyte : ∀ a b, (img.pix a b).1 ≤ 255 ∧ (img.pix a b).2.1 ≤ 255 ∧
      (img.pix a b).2.2 ≤ 255) :
    ∀ c ∈ extractDominantColors img, ∀ q : ℚ,
      c.r = some q ∨ c.g = some q ∨ c.b = some q →
      0 ≤ q ∧ q ≤ 256 / 255 := by
  intro c hc q hq
  simp only [extractDominantColors] at hc
  rw [List.mem_map] at hc
  obtain ⟨p, hp, rfl⟩ := hc
  have hp2 := List.mem_of_mem_take hp
  have hp3 := (List.perm_insertionSort _ _).mem_iff.mp hp2
  have hK := foldl_bumpColorCount_keys
    (fun k => (0 ≤ k.1 ∧ k.1 ≤ 256) ∧ (0 ≤ k.2.1 ∧ k.2.1 ≤ 256) ∧
      (0 ≤ k.2.2 ∧ k.2.2 ≤ 256)) _ [] (by simp) ?_ p hp3
  · have hdiv : ∀ z : ℤ, 0 ≤ z → z ≤ 256 →
        0 ≤ (z : ℚ) / 255 ∧ (z : ℚ) / 255 ≤ 256 / 255 := by
      intro z hz0 hz1
      constructor
      · apply div_nonneg _ (by norm_num)
        exact_mod_cast hz0
      · apply (div_le_div_right (by norm_num : (0 : ℚ) < 255)).mpr
        exact_mod_cast hz1
    dsimp only at hq
    rcases hq with hq | hq | hq <;>
      rw [Option.some.injEq] at hq <;> subst hq
    · exact hdiv _ hK.1.1 hK.1.2
    · exact hdiv _ hK.2.1.1 hK.2.1.2
    · exact hdiv _ hK.2.2.1 hK.2.2.2
  · intro v hv
    rw [List.mem_map] at hv
    obtain ⟨s, hs, rfl⟩ := hv
    rw [List.mem_map] at hs
    obtain ⟨k, _, rfl⟩ := hs
    exact ⟨jsRound_div32_mem _ (hbyte _ _).1,
      jsRound_div32_mem _ (hbyte _ _).2.1,
      jsRound_div32_mem _ (hbyte _ _).2.2⟩

/-- C9 (amended): under byte-valued pixels, every defined colour channel of
every region produced by `detectRegions` lies in the normalized range
[0, 1]; the dominant-colour palette only satisfies the weaker bound
[0, 256/255] — its quantization can push the 255 byte to bucket 256, so
the spec's [0, 1] invariant fails for the palette (and `NaN` channels are
possible for fractional grid cells). -/
theorem color_channel_bounds (img : Image)
    (hbyte : ∀ a b, (img.pix a b).1 ≤ 255 ∧ (img.pix a b).2.1 ≤ 255 ∧
      (img.pix a b).2.2 ≤ 255) (cfg : LocalProcessorConfig) :
    (∀ r ∈ detectRegions img cfg, colorIn01 r.color = true) ∧
    (∀ c ∈ extractDominantColors img, ∀ q : ℚ,
      c.r = some q ∨ c.g = some q ∨ c.b = some q →
      0 ≤ q ∧ q ≤ 256 / 255) :=
  ⟨detectRegions_colorIn01 img cfg hbyte,
    extractDominantColors_bounds img hbyte⟩

/-- Witness for the amended C9 theorem at a concrete 1×1 image. -/
theorem color_channel_bounds_witness :
    (∀ r ∈ detectRegions
        { width := 1, height := 1, pix := fun _ _ => (200, 100, 50) } {},
      colorIn01 r.color = true) ∧
    (∀ c ∈ extractDominantColors
        { width := 1, height := 1, pix := fun _ _ => (200, 100, 50) },
      ∀ q : ℚ, c.r = some q ∨ c.g = some q ∨ c.b = some q →
        0 ≤ q ∧ q ≤ 256 / 255) :=
  color_channel_bounds
    { width := 1, height := 1, pix := fun _ _ => (200, 100, 50) }
    (fun _ _ => ⟨by norm_num, by norm_num, by norm_num⟩) {}

/-! ### Colour parsing in the adapter (C4) -/

/-- `colorStr.replace("#", "")`: removes the first occurrence of `#`
only. -/
def replaceFirstHash : List Char → List Char
  | [] => []
  | c :: rest => if c = '#' then rest else c :: replaceFirstHash rest

/-- The numeric value of one hexadecimal digit. -/
def hexVal (c : Char) : Option ℕ :=
  if '0' ≤ c ∧ c ≤ '9' then some (c.toNat - '0'.toNat)
  else if 'a' ≤ c ∧ c ≤ 'f' then some (c.toNat - 'a'.toNat + 10)
  else if 'A' ≤ c ∧ c ≤ 'F' then some (c.toNat - 'A'.toNat + 10)
  else none

/-- Accumulate further hexadecimal digits (`parseInt`'s longest-prefix
rule: stop at the first non-digit). -/
def hexAcc : List Char → ℕ → ℕ
  | [], acc => acc
  | c :: rest, acc =>
    match hexVal c with
    | some d => hexAcc rest (acc * 16 + d)
    | none => acc

/-- The digit part of `parseInt(s, 16)`: `NaN` (`none`) when the string
starts with no hexadecimal digit. -/
def hexPrefixNat : List Char → Option ℕ
  | [] => none
  | c :: rest =>
    match hexVal c with
    | some d => some (hexAcc rest d)
    | none => none

/-- After sign handling, `parseInt(_, 16)` skips one leading `0x`/`0X`. -/
def hexBody : List Char → Option ℕ
  | '0' :: 'x' :: rest => hexPrefixNat rest
  | '0' :: 'X' :: rest => hexPrefixNat rest
  | s => hexPrefixNat s

/-- `parseInt(s, 16)`: trim leading spaces, optional sign, optional `0x`,
then the longest hexadecimal prefix; `NaN` (`none`) if no digit follows. -/
def jsParseIntHex (s : List Char) : Option ℤ :=
  match s.dropWhile (fun c => c = ' ') with
  | '-' :: rest => (hexBody rest).map fun n => -(n : ℤ)
  | '+' :: rest => (hexBody rest).map fun n => (n : ℤ)
  | rest => (hexBody rest).map fun n => (n : ℤ)

/-- One colour channel `parseInt(..., 16) / 255` (`NaN / 255` stays
`NaN`). -/
def hexChannel (s : List Char) : Option ℚ :=
  (jsParseIntHex s).map fun z => (z : ℚ) / 255

/-- `OpenApiVisionService.parseColor`: strip one `#`, then the 6-digit
branch, the 3-digit branch (each digit doubled), else mid-gray. -/
def parseColor (colorStr : List Char) : ColorInfo :=
  let hex := replaceFirstHash colorStr
  if hex.length = 6 then
    { r := hexChannel (hex.take 2)
      g := hexChannel ((hex.drop 2).take 2)
      b := hexChannel ((hex.drop 4).take 2) }
  else if hex.length = 3 then
    { r := hexChannel (hex.take 1 ++ hex.take 1)
      g := hexChannel ((hex.drop 1).take 1 ++ (hex.drop 1).take 1)
      b := hexChannel ((hex.drop 2).take 1 ++ (hex.drop 2).take 1) }
  else
    { r := some (1 / 2), g := some (1 / 2), b := some (1 / 2) }

/-- C4: the gray fallback fires only for stripped lengths other than 3 and
6. The spec's own scenario `"#ZZZ"` instead takes the 3-digit branch,
where `parseInt("ZZ", 16)` is `NaN`, so every channel comes back `NaN`
(`none`) rather than mid-gray; valid 6-digit and 3-digit forms do parse to
their exact channel values over 255. -/
theorem parseColor_zzz_divergence :
    parseColor ['#', 'Z', 'Z', 'Z'] = { r := none, g := none, b := none } ∧
    parseColor ['#', 'Z', 'Z', 'Z'] ≠
      { r := some (1 / 2), g := some (1 / 2), b := some (1 / 2) } ∧
    parseColor ['#', '1', '2', 'a', 'b', 'F', 'F'] =
      { r := some (18 / 255), g := some (171 / 255),
        b := some (255 / 255) } ∧
    parseColor ['#', 'f', '0', '8'] =
      { r := some (255 / 255), g := some (0 / 255),
        b := some (136 / 255) } := by
  refine ⟨rfl, by decide, ?_, ?_⟩
  · rw [show parseColor ['#', '1', '2', 'a', 'b', 'F', 'F'] =
        ({ r := some (((18 : ℤ) : ℚ) / 255), g := some (((171 : ℤ) : ℚ) / 255),
           b := some (((255 : ℤ) : ℚ) / 255) } : ColorInfo) from rfl]
    norm_num [ColorInfo.mk.injEq]
  · rw [show parseColor ['#', 'f', '0', '8'] =
        ({ r := some (((255 : ℤ) : ℚ) / 255), g := some (((0 : ℤ) : ℚ) / 255),
           b := some (((136 : ℤ) : ℚ) / 255) } : ColorInfo) from rfl]
    norm_num [ColorInfo.mk.injEq]

/-! ### Reply parsing in the adapter (C3, C10)

The adapter's `parseResponse` tries three strategies: `JSON.parse` on the
whole reply, a fenced-code-block regex, and an `"elements"`-object regex.
`JSON.parse` is modelled for the shapes the replies use: objects, arrays,
strings with the single-character escapes, integer numbers, booleans and
null (fractional numbers and unicode escapes are outside the model); the
two regexes are modelled with JavaScript's leftmost, greedy/lazy
backtracking semantics spelled out deterministically. -/

/-- Shorthand turning a string literal into the character list model. -/
def s2l (s : String) : List Char := s.toList

/-- The backtick character (the fenced-block delimiter). -/
def backtick : Char := Char.ofNat 96

/-- A JSON value (integer numbers only). -/
inductive JsonValue where
  | obj : List (List Char × JsonValue) → JsonValue
  | arr : List JsonValue → JsonValue
  | str : List Char → JsonValue
  | num : ℤ → JsonValue
  | bool : Bool → JsonValue
  | null : JsonValue

/-- The whitespace class of both `JSON.parse` and the regexes' `\s`
(the four common characters). -/
def jsWs (c : Char) : Bool :=
  c = ' ' || c = '\n' || c = '\t' || c = '\r'

/-- The value of a decimal digit. -/
def digitVal (c : Char) : Option ℕ :=
  if '0' ≤ c ∧ c ≤ '9' then some (c.toNat - '0'.toNat) else none

/-- Continue a decimal number over further digits. -/
def parseNatAcc : List Char → ℕ → ℕ × List Char
  | [], acc => (acc, [])
  | c :: rest, acc =>
    match digitVal c with
    | some d => parseNatAcc rest (acc * 10 + d)
    | none => (acc, c :: rest)

/-- A decimal number: at least one digit, longest run. -/
def parseNat : List Char → Option (ℕ × List Char)
  | [] => none
  | c :: rest =>
    match digitVal c with
    | some d => some (parseNatAcc rest d)
    | none => none

/-- A single-character string escape (`\uXXXX` is outside the model). -/
def escChar (c : Char) : Option Char :=
  if c = '"' then some '"'
  else if c = '\\' then some '\\'
  else if c = '/' then some '/'
  else if c = 'n' then some '\n'
  else if c = 't' then some '\t'
  else if c = 'r' then some '\r'
  else if c = 'b' then some (Char.ofNat 8)
  else if c = 'f' then some (Char.ofNat 12)
  else none

/-- The body of a JSON string after the opening quote: the contents and
what follows the closing quote. -/
def parseString : List Char → Option (List Char × List Char)
  | [] => none
  | '"' :: rest => some ([], rest)
  | '\\' :: e :: r2 =>
    match escChar e with
    | some ec => (parseString r2).map fun p => (ec :: p.1, p.2)
    | none => none
  | ['\\'] => none
  | c :: rest => (parseString rest).map fun p => (c :: p.1, p.2)

mutual

/-- One JSON value and the remaining input (fuel-indexed). -/
def parseValue : ℕ → List Char → Option (JsonValue × List Char)
  | 0, _ => none
  | fuel + 1, s =>
    match s.dropWhile jsWs with
    | [] => none
    | c :: rest =>
      if c = '{' then
        match rest.dropWhile jsWs with
        | '}' :: r2 => some (.obj [], r2)
        | _ => parseMembers fuel rest []
      else if c = '[' then
        match rest.dropWhile jsWs with
        | ']' :: r2 => some (.arr [], r2)
        | _ => parseElems fuel rest []
      else if c = '"' then
        (parseString rest).map fun p => (.str p.1, p.2)
      else if c = 't' then
        if rest.take 3 = ['r', 'u', 'e'] then some (.bool true, rest.drop 3)
        else none
      else if c = 'f' then
        if rest.take 4 = ['a', 'l', 's', 'e'] then
          some (.bool false, rest.drop 4)
        else none
      else if c = 'n' then
        if rest.take 3 = ['u', 'l', 'l'] then some (.null, rest.drop 3)
        else none
      else if c = '-' then
        match parseNat rest with
        | some (n, r2) => some (.num (-(n : ℤ)), r2)
        | none => none
      else
        match parseNat (c :: rest) with
        | some (n, r2) => some (.num (n : ℤ), r2)
        | none => none

/-- The members of an object after its `{` (at least one member). -/
def parseMembers : ℕ → List Char →
    List (List Char × JsonValue) → Option (JsonValue × List Char)
  | 0, _, _ => none
  | fuel + 1, s, acc =>
    match s.dropWhile jsWs with
    | '"' :: rest =>
      match parseString rest with
      | some (key, r2) =>
        match r2.dropWhile jsWs with
        | ':' :: r3 =>
          match parseValue fuel r3 with
          | some (v, r4) =>
            match r4.dropWhile jsWs with
            | ',' :: r5 => parseMembers fuel r5 (acc ++ [(key, v)])
            | '}' :: r5 => some (.obj (acc ++ [(key, v)]), r5)
            | _ => none
          | none => none
        | _ => none
      | none => none
    | _ => none

/-- The elements of an array after its `[` (at least one element). -/
def parseElems : ℕ → List Char → List JsonValue →
    Option (JsonValue × List Char)
  | 0, _, _ => none
  | fuel + 1, s, acc =>
    match parseValue fuel s with
    | some (v, r2) =>
      match r2.dropWhile jsWs with
      | ',' :: r3 => parseElems fuel r3 (acc ++ [v])
      | ']' :: r3 => some (.arr (acc ++ [v]), r3)
      | _ => none
    | none => none

end

/-- `JSON.parse`: one value, then only trailing whitespace. -/
def jsonParse (s : List Char) : Option JsonValue :=
  match parseValue (2 * s.length + 2) s with
  | some (v, rest) => if rest.dropWhile jsWs = [] then some v else none
  | none => none

/-- Property lookup on a parsed object (JS keeps the last duplicate). -/
def lookupField (fields : List (List Char × JsonValue)) (key : List Char) :
    Option JsonValue :=
  match fields with
  | [] => none
  | (k, v) :: rest =>
    match lookupField rest key with
    | some v2 => some v2
    | none => if k = key then some v else none

/-- `parsed.key`: `undefined` (`none`) on non-objects and missing keys. -/
def fieldOf (v : JsonValue) (key : List Char) : Option JsonValue :=
  match v with
  | .obj fields => lookupField fields key
  | _ => none

/-- JS truthiness of a `JSON.parse` result. -/
def jsTruthy : JsonValue → Bool
  | .bool b => b
  | .null => false
  | .num z => if z = 0 then false else true
  | .str s => !s.isEmpty
  | .obj _ => true
  | .arr _ => true

/-- `elem.x || 0` for a coordinate: a number is kept, anything falsy (or a
non-numeric value, which the replies do not produce) gives 0. -/
def numOr0 : Option JsonValue → ℚ
  | some (.num z) => (z : ℚ)
  | _ => 0

/-- `OpenApiVisionService.normalizeElementType`: the synonym table, with
`rectangle` as the fallback. -/
def normalizeElementType (t : List Char) : ElementType :=
  let lower := t.map Char.toLower
  if lower = s2l "rectangle" ∨ lower = s2l "rect" ∨ lower = s2l "square" ∨
      lower = s2l "button" then .rectangle
  else if lower = s2l "circle" ∨ lower = s2l "ellipse" ∨
      lower = s2l "oval" then .circle
  else if lower = s2l "text" ∨ lower = s2l "label" then .text
  else if lower = s2l "image" ∨ lower = s2l "img" ∨
      lower = s2l "picture" then .image
  else if lower = s2l "frame" ∨ lower = s2l "container" ∨
      lower = s2l "div" then .frame
  else if lower = s2l "line" ∨ lower = s2l "border" then .line
  else .rectangle

/-- `elem.color ? this.parseColor(elem.color) : undefined`: an empty or
missing colour is skipped; a truthy non-string would make `replace` throw
(`none` at the outer level). -/
def colorFieldOf (elem : JsonValue) : Option (Option ColorInfo) :=
  match fieldOf elem (s2l "color") with
  | none => some none
  | some (.str s) =>
    if s.isEmpty then some none else some (some (parseColor s))
  | some v => if jsTruthy v then none else some none

/-- `elem.text` when it is a string. -/
def textFieldOf (elem : JsonValue) : Option (List Char) :=
  match fieldOf elem (s2l "text") with
  | some (.str s) => some s
  | _ => none

/-- `elem.fontSize` when it is a number. -/
def fontSizeOf (elem : JsonValue) : Option ℚ :=
  match fieldOf elem (s2l "fontSize") with
  | some (.num z) => some ((z : ℤ) : ℚ)
  | _ => none

/-- `OpenApiVisionService.convertElement`: `elem.type.toLowerCase()`
throws (`none`) unless `type` is a string. -/
def convertElement (elem : JsonValue) : Option RecognizedElement :=
  match fieldOf elem (s2l "type"), colorFieldOf elem with
  | some (.str t), some col =>
    some { type := normalizeElementType t
           x := numOr0 (fieldOf elem (s2l "x"))
           y := numOr0 (fieldOf elem (s2l "y"))
           width := numOr0 (fieldOf elem (s2l "width"))
           height := numOr0 (fieldOf elem (s2l "height"))
           color := col
           text := textFieldOf elem
           fontSize := fontSizeOf elem }
  | _, _ => none

/-- `.map(convertElement)` over the elements array, failing if any element
conversion throws. -/
def mapConvert : List JsonValue → Option (List RecognizedElement)
  | [] => some []
  | e :: rest =>
    match convertElement e, mapConvert rest with
    | some r, some rs => some (r :: rs)
    | _, _ => none

/-- `(parsed.elements || [])`: missing or falsy gives `[]`; a truthy
non-array makes `.map` throw. -/
def elementsListOf (v : JsonValue) : Option (List JsonValue) :=
  match fieldOf v (s2l "elements") with
  | none => some []
  | some e =>
    if jsTruthy e then
      match e with
      | .arr l => some l
      | _ => none
    else some []

/-- The result assembly of `parseResponse` after a successful parse. -/
def buildResult (v : JsonValue) : Option ImageAnalysisResult :=
  match elementsListOf v with
  | none => none
  | some l =>
    match mapConvert l with
    | none => none
    | some elems =>
      some { width := numOr0 (fieldOf v (s2l "width"))
             height := numOr0 (fieldOf v (s2l "height"))
             elements := elems
             success := true }

/-- The fence delimiter. -/
def fenceLit : List Char := [backtick, backtick, backtick]

/-- After a candidate closing brace, the regex requires any whitespace and
then a closing fence. -/
def closesFence (s : List Char) : Bool :=
  (s.dropWhile jsWs).take 3 = fenceLit

/-- The lazy `(\x7b[\s\S]*?\x7d)` capture scan: the shortest body whose
closing brace is followed by whitespace and the closing fence. -/
def findLazy : List Char → List Char → Option (List Char)
  | _, [] => none
  | acc, c :: rest =>
    if c = '}' ∧ closesFence rest = true then
      some ('{' :: acc.reverse ++ ['}'])
    else findLazy (c :: acc) rest

/-- After the optional `json` tag: greedy whitespace, an opening brace,
then the lazy capture. -/
def tryOpenBrace (s : List Char) : Option (List Char) :=
  match s.dropWhile jsWs with
  | '{' :: t => findLazy [] t
  | _ => none

/-- One attempt of the fenced-block regex anchored at this position:
opening fence, optional `json` (tried first, as the regex is greedy),
whitespace, the lazy brace capture. -/
def tryFenceAt (s : List Char) : Option (List Char) :=
  if s.take 3 = fenceLit then
    let a := s.drop 3
    match (if a.take 4 = s2l "json" then tryOpenBrace (a.drop 4)
           else none) with
    | some cap => some cap
    | none => tryOpenBrace a
  else none

/-- `content.match(/...fenced.../)`: leftmost successful start wins. -/
def codeBlockSearch : List Char → Option (List Char)
  | [] => none
  | c :: rest =>
    match tryFenceAt (c :: rest) with
    | some cap => some cap
    | none => codeBlockSearch rest

/-- A character other than the two braces. -/
def nonBrace (c : Char) : Bool := !(c = '{' || c = '}')

/-- The literal `"elements"` (with its quotes) of the third regex. -/
def elemLit : List Char := '"' :: s2l "elements" ++ ['"']

/-- After the `"elements"` literal: `\s*:\s*\[[^\x5d]*\][^{}]*\}`, each
piece deterministic by maximal munch; returns the matched tail. -/
def elementsTail (s : List Char) : Option (List Char) :=
  let w1 := s.takeWhile jsWs
  match s.dropWhile jsWs with
  | ':' :: r2 =>
    let w2 := r2.takeWhile jsWs
    match r2.dropWhile jsWs with
    | '[' :: r3 =>
      let b := r3.takeWhile fun c => !(c = ']')
      match r3.dropWhile (fun c => !(c = ']')) with
      | ']' :: r4 =>
        let cpart := r4.takeWhile nonBrace
        match r4.dropWhile nonBrace with
        | '}' :: _ =>
          some (w1 ++ ':' :: w2 ++ '[' :: b ++ ']' :: cpart ++ ['}'])
        | _ => none
      | _ => none
    | _ => none
  | _ => none

/-- The third regex anchored at an opening brace: `[^{}]*` is greedy, so
the latest position of the `"elements"` literal inside the brace-free run
is tried first. `s` is the text after the brace. -/
def elementsAt (s : List Char) : Option (List Char) :=
  let run := s.takeWhile nonBrace
  (List.range (run.length + 1)).reverse.findSome? fun p =>
    if (s.drop p).take 10 = elemLit then
      (elementsTail (s.drop (p + 10))).map fun tl =>
        '{' :: s.take p ++ elemLit ++ tl
    else none

/-- `content.match(/\x7b[^{}]*"elements".../)`: leftmost `{` whose
anchored attempt succeeds. -/
def elementsSearch : List Char → Option (List Char)
  | [] => none
  | ch :: rest =>
    if ch = '{' then
      match elementsAt rest with
      | some m => some m
      | none => elementsSearch rest
    else elementsSearch rest

/-- `OpenApiVisionService.parseResponse`: direct parse, else fenced block
(its inner parse failure is fatal), else the elements regex; `none` is the
thrown parse error. -/
def parseResponse (content : List Char) : Option ImageAnalysisResult :=
  match jsonParse content with
  | some v => buildResult v
  | none =>
    match codeBlockSearch content with
    | some cap =>
      match jsonParse cap with
      | some v => buildResult v
      | none => none
    | none =>
      match elementsSearch content with
      | some cap =>
        match jsonParse cap with
        | some v => buildResult v
        | none => none
      | none => none

/-- C10: a reply that is a syntactically valid JSON object without an
`elements` array is not a parse error: the adapter reports success with an
empty element list, and width/height default to 0 when those fields are
absent as well. -/
theorem object_without_elements_succeeds (content : List Char)
    (fields : List (List Char × JsonValue))
    (hparse : jsonParse content = some (.obj fields))
    (hnoelem : lookupField fields (s2l "elements") = none) :
    ∃ res, parseResponse content = some res ∧ res.success = true ∧
      res.elements = [] ∧
      (lookupField fields (s2l "width") = none → res.width = 0) ∧
      (lookupField fields (s2l "height") = none → res.height = 0) := by
  refine ⟨{ width := numOr0 (lookupField fields (s2l "width")),
            height := numOr0 (lookupField fields (s2l "height")),
            elements := [], success := true }, ?_, rfl, rfl, ?_, ?_⟩
  · unfold parseResponse
    rw [hparse]
    dsimp only
    unfold buildResult elementsListOf
    rw [show fieldOf (JsonValue.obj fields) (s2l "elements") = none from
      hnoelem]
    rfl
  · intro h
    show numOr0 (lookupField fields (s2l "width")) = 0
    rw [h]
    rfl
  · intro h
    show numOr0 (lookupField fields (s2l "height")) = 0
    rw [h]
    rfl

/-- Witness for the C10 theorem at the reply consisting of an empty
object. -/
theorem object_without_elements_succeeds_witness :
    ∃ res, parseResponse (s2l "\x7b\x7d") = some res ∧
      res.success = true ∧ res.elements = [] ∧
      (lookupField ([] : List (List Char × JsonValue)) (s2l "width") =
        none → res.width = 0) ∧
      (lookupField ([] : List (List Char × JsonValue)) (s2l "height") =
        none → res.height = 0) :=
  object_without_elements_succeeds (s2l "\x7b\x7d") [] rfl rfl

/-- The reply payload of the C3 counterexample: a well-formed object whose
single text element's content holds a `]`. -/
def c3bad : List Char :=
  s2l "\x7b\"width\":1,\"height\":1,\"elements\":[\x7b\"type\":\"text\",\"text\":\"a]b\"\x7d]\x7d"

/-- The element the counterexample's payload describes. -/
def c3badElem : RecognizedElement :=
  { type := .text, x := 0, y := 0, width := 0, height := 0,
    color := none, layout := none, text := some (s2l "a]b"),
    fontSize := none }

/-- What strategy 1 yields on the bare counterexample payload. -/
def c3badResult : ImageAnalysisResult :=
  { width := ((1 : ℤ) : ℚ), height := ((1 : ℤ) : ℚ),
    elements := [c3badElem], success := true }

/-- C3 counterexample: the bare payload parses (strategy 1) to a one-text
element list, but the same payload embedded in prose reaches the third
regex, whose `[^\x5d]*` stops at the `]` inside the text string; the
truncated capture fails `JSON.parse` and the whole parse throws, so the
two forms do not yield the same element list. -/
theorem response_strategies_disagree :
    (∃ res, parseResponse c3bad = some res ∧ res.elements ≠ []) ∧
    parseResponse (s2l "see " ++ c3bad ++ s2l " ok") = none := by
  constructor
  · exact ⟨c3badResult, rfl, List.cons_ne_nil _ _⟩
  · rfl

/-- The scheme of a well-formed reply payload: after the opening brace, a
brace-free prefix, the `"elements"` literal, whitespace, a colon,
whitespace, the array (free of a closing bracket inside), a brace-free
suffix and the closing brace. -/
def interiorStr (A W1 W2 B C : List Char) : List Char :=
  A ++ elemLit ++ W1 ++ ':' :: W2 ++ '[' :: B ++ ']' :: C ++ ['}']

/-- The payload string of the scheme. -/
def payloadStr (A W1 W2 B C : List Char) : List Char :=
  '{' :: interiorStr A W1 W2 B C

/-- The payload wrapped in a fenced code block. -/
def fenceWrap (c : List Char) : List Char :=
  fenceLit ++ s2l "json" ++ '\n' :: c ++ '\n' :: fenceLit

/-- The payload embedded in surrounding prose. -/
def proseWrap (c : List Char) : List Char :=
  s2l "Reply: " ++ c ++ s2l " ok."

theorem takeWhile_append_of_all (p : Char → Bool) :
    ∀ (A r : List Char), (∀ a ∈ A, p a = true) →
      (A ++ r).takeWhile p = A ++ r.takeWhile p := by
  intro A
  induction A with
  | nil => intro r _; rfl
  | cons a A2 ih =>
    intro r h
    rw [List.cons_append,
      List.takeWhile_cons_of_pos (h a (List.mem_cons_self _ _)),
      ih r (fun x hx => h x (List.mem_cons_of_mem _ hx)), List.cons_append]

theorem dropWhile_append_of_all (p : Char → Bool) :
    ∀ (A r : List Char), (∀ a ∈ A, p a = true) →
      (A ++ r).dropWhile p = r.dropWhile p := by
  intro A
  induction A with
  | nil => intro r _; rfl
  | cons a A2 ih =>
    intro r h
    rw [List.cons_append,
      List.dropWhile_cons_of_pos (h a (List.mem_cons_self _ _)),
      ih r (fun x hx => h x (List.mem_cons_of_mem _ hx))]

theorem parseValue_badhead (fuel : ℕ) (ch : Char) (s : List Char)
    (hws : jsWs ch = false) (h1 : ch ≠ '{') (h2 : ch ≠ '[')
    (h3 : ch ≠ '"') (h4 : ch ≠ 't') (h5 : ch ≠ 'f') (h6 : ch ≠ 'n')
    (h7 : ch ≠ '-') (h8 : digitVal ch = none) :
    parseValue fuel (ch :: s) = none := by
  cases fuel with
  | zero => rfl
  | succ fuel =>
    rw [parseValue, List.dropWhile_cons_of_neg (by simp [hws])]
    dsimp only
    rw [if_neg h1, if_neg h2, if_neg h3, if_neg h4, if_neg h5, if_neg h6,
      if_neg h7]
    rw [show parseNat (ch :: s) = none from by rw [parseNat, h8]]

theorem jsonParse_badhead (ch : Char) (s : List Char)
    (hws : jsWs ch = false) (h1 : ch ≠ '{') (h2 : ch ≠ '[')
    (h3 : ch ≠ '"') (h4 : ch ≠ 't') (h5 : ch ≠ 'f') (h6 : ch ≠ 'n')
    (h7 : ch ≠ '-') (h8 : digitVal ch = none) :
    jsonParse (ch :: s) = none := by
  unfold jsonParse
  rw [parseValue_badhead _ ch s hws h1 h2 h3 h4 h5 h6 h7 h8]

theorem closesFence_head_ne (d : Char) (l : List Char) (hd : d ≠ backtick)
    (hws : jsWs d = false) : closesFence (d :: l) = false := by
  unfold closesFence
  rw [List.dropWhile_cons_of_neg (by simp [hws])]
  apply decide_eq_false
  intro h
  have h3 : d :: l.take 2 = [backtick, backtick, backtick] := h
  injection h3 with h31 _
  exact hd h31

theorem closesFence_cons_ws (ch : Char) (l : List Char)
    (h : jsWs ch = true) : closesFence (ch :: l) = closesFence l := by
  unfold closesFence
  rw [List.dropWhile_cons_of_pos h]

theorem closesFence_false_inner (tail : List Char) :
    ∀ w : List Char, (∀ ch ∈ w, ch ≠ backtick) →
      closesFence (w ++ '}' :: tail) = false := by
  intro w
  induction w with
  | nil =>
    intro _
    exact closesFence_head_ne '}' tail (by decide) (by decide)
  | cons ch w2 ih =>
    intro h
    rw [List.cons_append]
    cases hws : jsWs ch with
    | true =>
      rw [closesFence_cons_ws ch _ hws]
      exact ih (fun x hx => h x (List.mem_cons_of_mem _ hx))
    | false =>
      exact closesFence_head_ne ch _ (h ch (List.mem_cons_self _ _)) hws

theorem findLazy_no_early (tail : List Char)
    (htail : closesFence tail = true) :
    ∀ (m acc : List Char),
      (∀ u w, m = u ++ '}' :: w → closesFence (w ++ '}' :: tail) = false) →
      findLazy acc (m ++ '}' :: tail) =
        some ('{' :: acc.reverse ++ (m ++ ['}'])) := by
  intro m
  induction m with
  | nil =>
    intro acc _
    show findLazy acc ('}' :: tail) = _
    rw [findLazy, if_pos ⟨rfl, htail⟩, List.nil_append]
  | cons x m2 ih =>
    intro acc hno
    have hcond : ¬(x = '}' ∧ closesFence (m2 ++ '}' :: tail) = true) := by
      rintro ⟨hx, hcf⟩
      rw [hno [] m2 (by simp [hx])] at hcf
      exact absurd hcf (by simp)
    have hno2 : ∀ u w, m2 = u ++ '}' :: w →
        closesFence (w ++ '}' :: tail) = false :=
      fun u w huw => hno (x :: u) w (by rw [huw, List.cons_append])
    rw [List.cons_append, findLazy, if_neg hcond, ih (x :: acc) hno2]
    simp [List.reverse_cons, List.append_assoc]

theorem codeBlockSearch_none_no_tick :
    ∀ s : List Char, backtick ∉ s → codeBlockSearch s = none := by
  intro s
  induction s with
  | nil => intro _; rfl
  | cons c rest ih =>
    intro h
    have htf : tryFenceAt (c :: rest) = none := by
      unfold tryFenceAt
      rw [if_neg ?_]
      intro heq
      have h3 : c :: rest.take 2 = [backtick, backtick, backtick] := heq
      injection h3 with h31 _
      refine h ?_
      rw [← h31]
      exact List.mem_cons_self c rest
    rw [codeBlockSearch, htf]
    exact ih (fun hm => h (List.mem_cons_of_mem _ hm))

theorem elementsSearch_append_no_open :
    ∀ (w : List Char), '{' ∉ w → ∀ s : List Char,
      elementsSearch (w ++ s) = elementsSearch s := by
  intro w
  induction w with
  | nil => intro _ s; rfl
  | cons c w2 ih =>
    intro h s
    rw [List.cons_append, elementsSearch,
      if_neg (fun hc => h (by rw [← hc]; exact List.mem_cons_self c w2))]
    exact ih (fun hm => h (List.mem_cons_of_mem _ hm)) s

theorem findSome?_reverse_range {α : Type} (f : ℕ → Option α) (p0 : ℕ)
    (x : α) (hx : f p0 = some x)
    (habove : ∀ p, p0 < p → f p = none) :
    ∀ n, p0 ≤ n → (List.range (n + 1)).reverse.findSome? f = some x := by
  intro n
  induction n with
  | zero =>
    intro h0
    have hp0 : p0 = 0 := Nat.le_zero.mp h0
    subst hp0
    show List.findSome? f [0] = some x
    rw [List.findSome?_cons, hx]
  | succ n ih =>
    intro hle
    rw [List.range_succ, List.reverse_append]
    show List.findSome? f ((n + 1) :: (List.range (n + 1)).reverse) = some x
    rw [List.findSome?_cons]
    by_cases hp : p0 = n + 1
    · subst hp
      rw [hx]
    · rw [habove (n + 1) (by omega)]
      exact ih (by omega)

theorem codeBlockSearch_fenceWrap (c I2 : List Char)
    (hc : c = '{' :: (I2 ++ ['}'])) (hnotick : backtick ∉ c) :
    codeBlockSearch (fenceWrap c) = some c := by
  subst hc
  have htail : closesFence ('\n' :: fenceLit) = true := by decide
  have hno : ∀ u w, I2 = u ++ '}' :: w →
      closesFence (w ++ '}' :: ('\n' :: fenceLit)) = false := by
    intro u w huw
    refine closesFence_false_inner _ w ?_
    intro ch hch heq
    refine hnotick ?_
    rw [huw, ← heq]
    exact List.mem_cons_of_mem _ (List.mem_append_left _
      (List.mem_append_right _ (List.mem_cons_of_mem _ hch)))
  have hob : tryOpenBrace ('\n' :: (('{' :: (I2 ++ ['}'])) ++ '\n' ::
      fenceLit)) = some ('{' :: (I2 ++ ['}'])) := by
    show findLazy [] ((I2 ++ ['}']) ++ '\n' :: fenceLit) =
      some ('{' :: (I2 ++ ['}']))
    rw [List.append_assoc, List.singleton_append,
      findLazy_no_early ('\n' :: fenceLit) htail I2 [] hno]
    simp
  have htf : tryFenceAt (backtick :: backtick :: backtick :: 'j' :: 's' ::
      'o' :: 'n' :: '\n' :: (('{' :: (I2 ++ ['}'])) ++ '\n' :: fenceLit)) =
      some ('{' :: (I2 ++ ['}'])) := by
    show (match tryOpenBrace ('\n' :: (('{' :: (I2 ++ ['}'])) ++ '\n' ::
        fenceLit)) with
      | some cap => some cap
      | none => tryOpenBrace ('j' :: 's' :: 'o' :: 'n' :: '\n' ::
          (('{' :: (I2 ++ ['}'])) ++ '\n' :: fenceLit))) =
      some ('{' :: (I2 ++ ['}']))
    rw [hob]
  show codeBlockSearch (backtick :: backtick :: backtick :: 'j' :: 's' ::
    'o' :: 'n' :: '\n' :: (('{' :: (I2 ++ ['}'])) ++ '\n' :: fenceLit)) =
    some ('{' :: (I2 ++ ['}']))
  rw [codeBlockSearch, htf]

theorem elementsAt_interior (A W1 W2 B C post : List Char)
    (hA : ∀ ch ∈ A, nonBrace ch = true)
    (hW1 : ∀ ch ∈ W1, jsWs ch = true)
    (hW2 : ∀ ch ∈ W2, jsWs ch = true)
    (hB : ∀ ch ∈ B, ch ≠ ']')
    (hC : ∀ ch ∈ C, nonBrace ch = true)
    (huniq : ∀ p, A.length < p →
      ((interiorStr A W1 W2 B C ++ post).drop p).take 10 ≠ elemLit) :
    elementsAt (interiorStr A W1 W2 B C ++ post) =
      some (payloadStr A W1 W2 B C) := by
  have hs0 : interiorStr A W1 W2 B C ++ post =
      A ++ (elemLit ++ (W1 ++ (':' :: (W2 ++ ('[' :: (B ++ (']' ::
        (C ++ ('}' :: post))))))))) := by
    simp [interiorStr, List.append_assoc]
  rw [hs0] at huniq ⊢
  have hBb : ∀ ch ∈ B, (!(ch = ']') : Bool) = true := by
    intro ch hch
    simp [hB ch hch]
  have e1 : List.dropWhile jsWs (W1 ++ (':' :: (W2 ++ ('[' :: (B ++
      (']' :: (C ++ ('}' :: post)))))))) =
      ':' :: (W2 ++ ('[' :: (B ++ (']' :: (C ++ ('}' :: post)))))) := by
    rw [dropWhile_append_of_all jsWs W1 _ hW1]
    exact List.dropWhile_cons_of_neg (by decide)
  have e2 : List.takeWhile jsWs (W1 ++ (':' :: (W2 ++ ('[' :: (B ++
      (']' :: (C ++ ('}' :: post)))))))) = W1 := by
    rw [takeWhile_append_of_all jsWs W1 _ hW1,
      List.takeWhile_cons_of_neg (by decide), List.append_nil]
  have e3 : List.dropWhile jsWs (W2 ++ ('[' :: (B ++ (']' :: (C ++
      ('}' :: post)))))) = '[' :: (B ++ (']' :: (C ++ ('}' :: post)))) := by
    rw [dropWhile_append_of_all jsWs W2 _ hW2]
    exact List.dropWhile_cons_of_neg (by decide)
  have e4 : List.takeWhile jsWs (W2 ++ ('[' :: (B ++ (']' :: (C ++
      ('}' :: post)))))) = W2 := by
    rw [takeWhile_append_of_all jsWs W2 _ hW2,
      List.takeWhile_cons_of_neg (by decide), List.append_nil]
  have e5 : List.dropWhile (fun c => !(c = ']')) (B ++ (']' :: (C ++
      ('}' :: post)))) = ']' :: (C ++ ('}' :: post)) := by
    rw [dropWhile_append_of_all _ B _ hBb]
    exact List.dropWhile_cons_of_neg (by decide)
  have e6 : List.takeWhile (fun c => !(c = ']')) (B ++ (']' :: (C ++
      ('}' :: post)))) = B := by
    rw [takeWhile_append_of_all _ B _ hBb,
      List.takeWhile_cons_of_neg (by decide), List.append_nil]
  have e7 : List.dropWhile nonBrace (C ++ ('}' :: post)) = '}' :: post := by
    rw [dropWhile_append_of_all nonBrace C _ hC]
    exact List.dropWhile_cons_of_neg (by decide)
  have e8 : List.takeWhile nonBrace (C ++ ('}' :: post)) = C := by
    rw [takeWhile_append_of_all nonBrace C _ hC,
      List.takeWhile_cons_of_neg (by decide), List.append_nil]
  have htl : elementsTail (W1 ++ (':' :: (W2 ++ ('[' :: (B ++ (']' ::
      (C ++ ('}' :: post)))))))) =
      some ((((W1 ++ (':' :: W2)) ++ ('[' :: B)) ++ (']' :: C)) ++
        ['}']) := by
    simp only [elementsTail, e1, e2, e3, e4, e5, e6, e7, e8]
  simp only [elementsAt]
  refine findSome?_reverse_range _ A.length _ ?_ ?_ _ ?_
  · rw [List.drop_left,
      show (10 : ℕ) = elemLit.length from rfl, List.take_left, if_pos rfl]
    have hd2 : (A ++ (elemLit ++ (W1 ++ (':' :: (W2 ++ ('[' :: (B ++
        (']' :: (C ++ ('}' :: post)))))))))).drop
          (A.length + elemLit.length) =
        W1 ++ (':' :: (W2 ++ ('[' :: (B ++ (']' ::
          (C ++ ('}' :: post))))))) := by
      rw [← List.append_assoc, ← List.length_append, List.drop_left]
    rw [hd2, htl]
    simp [List.take_left, payloadStr, interiorStr, List.append_assoc]
  · intro p hp
    rw [if_neg (huniq p hp)]
  · rw [takeWhile_append_of_all nonBrace A _ hA, List.length_append]
    omega

theorem elementsSearch_proseWrap (A W1 W2 B C : List Char)
    (hA : ∀ ch ∈ A, nonBrace ch = true)
    (hW1 : ∀ ch ∈ W1, jsWs ch = true)
    (hW2 : ∀ ch ∈ W2, jsWs ch = true)
    (hB : ∀ ch ∈ B, ch ≠ ']')
    (hC : ∀ ch ∈ C, nonBrace ch = true)
    (huniq : ∀ p, A.length < p →
      ((interiorStr A W1 W2 B C ++ s2l " ok.").drop p).take 10 ≠ elemLit) :
    elementsSearch (proseWrap (payloadStr A W1 W2 B C)) =
      some (payloadStr A W1 W2 B C) := by
  have hpre : proseWrap (payloadStr A W1 W2 B C) =
      s2l "Reply: " ++ ('{' :: (interiorStr A W1 W2 B C ++ s2l " ok.")) := by
    simp [proseWrap, payloadStr, List.append_assoc]
  rw [hpre, elementsSearch_append_no_open (s2l "Reply: ") (by decide) _,
    elementsSearch, if_pos rfl,
    elementsAt_interior A W1 W2 B C (s2l " ok.") hA hW1 hW2 hB hC huniq]

/-- C3 (amended): for a schema-conforming payload — a brace-free field
prefix before a unique `"elements"` key, an array whose body holds no `]`,
a brace-free suffix, no backticks — the bare reply, the fenced-block
wrapping and the prose-embedded form all parse to the same outcome, the
result built from the parsed payload. Outside this shape the strategies
can disagree: a `]` inside a text field truncates the third regex's
capture (see the counterexample). -/
theorem response_strategies_agree (A W1 W2 B C : List Char) (v : JsonValue)
    (hA : ∀ ch ∈ A, nonBrace ch = true)
    (hW1 : ∀ ch ∈ W1, jsWs ch = true)
    (hW2 : ∀ ch ∈ W2, jsWs ch = true)
    (hB : ∀ ch ∈ B, ch ≠ ']')
    (hC : ∀ ch ∈ C, nonBrace ch = true)
    (hnotick : backtick ∉ payloadStr A W1 W2 B C)
    (hparse : jsonParse (payloadStr A W1 W2 B C) = some v)
    (huniq : ∀ p, A.length < p →
      ((interiorStr A W1 W2 B C ++ s2l " ok.").drop p).take 10 ≠ elemLit) :
    parseResponse (payloadStr A W1 W2 B C) = buildResult v ∧
    parseResponse (fenceWrap (payloadStr A W1 W2 B C)) = buildResult v ∧
    parseResponse (proseWrap (payloadStr A W1 W2 B C)) = buildResult v := by
  have hshape : payloadStr A W1 W2 B C =
      '{' :: ((A ++ elemLit ++ W1 ++ ':' :: W2 ++ '[' :: B ++ ']' :: C) ++
        ['}']) := by
    simp [payloadStr, interiorStr, List.append_assoc]
  refine ⟨?_, ?_, ?_⟩
  · unfold parseResponse
    rw [hparse]
  · unfold parseResponse
    have hjp : jsonParse (fenceWrap (payloadStr A W1 W2 B C)) = none := by
      show jsonParse (backtick :: (backtick :: backtick :: 'j' :: 's' ::
        'o' :: 'n' :: '\n' :: (payloadStr A W1 W2 B C ++ '\n' ::
          fenceLit))) = none
      exact jsonParse_badhead backtick _ (by decide) (by decide) (by decide)
        (by decide) (by decide) (by decide) (by decide) (by decide) rfl
    rw [hjp]
    dsimp only
    rw [codeBlockSearch_fenceWrap (payloadStr A W1 W2 B C) _ hshape hnotick]
    dsimp only
    rw [hparse]
  · unfold parseResponse
    have hjp : jsonParse (proseWrap (payloadStr A W1 W2 B C)) = none := by
      show jsonParse ('R' :: ('e' :: 'p' :: 'l' :: 'y' :: ':' :: ' ' ::
        (payloadStr A W1 W2 B C ++ s2l " ok."))) = none
      exact jsonParse_badhead 'R' _ (by decide) (by decide) (by decide)
        (by decide) (by decide) (by decide) (by decide) (by decide) rfl
    have hcb : codeBlockSearch (proseWrap (payloadStr A W1 W2 B C)) =
        none := by
      refine codeBlockSearch_none_no_tick _ ?_
      intro hmem
      unfold proseWrap at hmem
      rcases List.mem_append.mp hmem with hmem | hmem
      · rcases List.mem_append.mp hmem with hmem | hmem
        · exact absurd hmem (by decide)
        · exact hnotick hmem
      · exact absurd hmem (by decide)
    rw [hjp]
    dsimp only
    rw [hcb]
    dsimp only
    rw [elementsSearch_proseWrap A W1 W2 B C hA hW1 hW2 hB hC huniq]
    dsimp only
    rw [hparse]

/-- Witness for the amended C3 theorem at the payload consisting of an
empty elements array. -/
theorem response_strategies_agree_witness :
    parseResponse (payloadStr [] [] [] [] []) =
      buildResult (.obj [(s2l "elements", .arr [])]) ∧
    parseResponse (fenceWrap (payloadStr [] [] [] [] [])) =
      buildResult (.obj [(s2l "elements", .arr [])]) ∧
    parseResponse (proseWrap (payloadStr [] [] [] [] [])) =
      buildResult (.obj [(s2l "elements", .arr [])]) :=
  response_strategies_agree [] [] [] [] []
    (.obj [(s2l "elements", .arr [])])
    (fun _ hch => absurd hch (List.not_mem_nil _))
    (fun _ hch => absurd hch (List.not_mem_nil _))
    (fun _ hch => absurd hch (List.not_mem_nil _))
    (fun _ hch => absurd hch (List.not_mem_nil _))
    (fun _ hch => absurd hch (List.not_mem_nil _))
    (by decide)
    rfl
    (by
      intro p hp
      by_cases hlt : p < (interiorStr [] [] [] [] [] ++ s2l " ok.").length
      · have hlen : (interiorStr [] [] [] [] [] ++ s2l " ok.").length =
            18 := by decide
        have hb : ∀ q, q < 18 → 0 < q →
            ((interiorStr [] [] [] [] [] ++ s2l " ok.").drop q).take 10 ≠
              elemLit := by decide
        exact hb p (by omega) hp
      · rw [List.drop_eq_nil_of_le (Nat.not_lt.mp hlt)]
        decide)

/-- Witness for the amended C7 theorem: a uniform 40×20 image with the
default configuration yields exactly one element. -/
theorem segmentation_uniform_single_row_witness :
    (convertRegionsToElements (detectRegions
      { width := 40, height := 20, pix := fun _ _ => (7, 7, 7) }
      { colorThreshold := 30, minRegionSize := 20, maxRegions := 50 })).length
      = 1 :=
  segmentation_uniform_single_row
    { width := 40, height := 20, pix := fun _ _ => (7, 7, 7) }
    { colorThreshold := 30, minRegionSize := 20, maxRegions := 50 }
    (7, 7, 7) (fun _ _ _ _ => rfl) (by norm_num) (by norm_num) (by norm_num)
    (by norm_num) (by norm_num)

end I2P
